import Mathlib

/-!
Verification of the hybrid retrieval / corrective-gating backend
(`backend/services` of the rag-sources-app repository) against its
natural-language specification.

Modelling conventions (shallow embedding):
* Python floats are modelled as exact rationals (`ℚ`);
* Python dicts (insertion-ordered) are association lists;
* Python strings are `String` where only equality matters and `List Char`
  where the code slices and searches them;
* `sorted(..., key, reverse=True)` / `list.sort(..., reverse=True)` is the
  stable descending sort `sortDesc` (stability plus descending order
  determines the output uniquely, so any faithful model agrees with it);
* fallible collaborators (the embedding model, the LLM call) are passed in
  as `Except`-valued functions;
* the one unbounded `while` loop (`_recursive_split`) is given explicit
  fuel: `none` means the loop has not finished within that many iterations.
-/

namespace Rag

/-- Python dict lookup with default, `m.get(key, d)`: the first binding of
the key wins. -/
def dictGetD {β : Type} : List (String × β) → String → β → β
  | [], _, d => d
  | (k, v) :: rest, key, d => if k = key then v else dictGetD rest key d

/-- Python dict assignment `m[key] = v`: updates the existing binding in
place, else appends at the end (insertion order preserved). -/
def dictSet {β : Type} : List (String × β) → String → β → List (String × β)
  | [], key, v => [(key, v)]
  | (k, w) :: rest, key, v =>
    if k = key then (k, v) :: rest else (k, w) :: dictSet rest key v

/-- Python `key in m` for a dict. -/
def dictMem {β : Type} (key : String) (m : List (String × β)) : Bool :=
  m.any (fun p => p.1 = key)

/-- Keys of a dict in insertion order. -/
def dictKeys {β : Type} (m : List (String × β)) : List String :=
  m.map Prod.fst

/-- Insert one element into a list so that rational keys stay descending;
an earlier element goes in front of every element of equal key. -/
def insertDesc {α : Type} (key : α → ℚ) (x : α) : List α → List α
  | [] => [x]
  | y :: ys => if key y > key x then y :: insertDesc key x ys else x :: y :: ys

/-- Stable descending sort by a rational key: the output of Python's
`sorted(xs, key=key, reverse=True)` (stable and descending, which fixes the
result uniquely). -/
def sortDesc {α : Type} (key : α → ℚ) : List α → List α
  | [] => []
  | x :: xs => insertDesc key x (sortDesc key xs)

/-- Chunk metadata, the keys ingestion writes into every chunk's
`metadata` dict (`backend/services/ingestion.py`). -/
structure Meta where
  document_id : String
  filename : String
  collection_name : String
  page_number : String
deriving DecidableEq, Repr

def defaultMeta : Meta := ⟨"", "", "", ""⟩

/-- A ranked search result `{id, text, metadata, score}` as produced by the
lexical and semantic stores. -/
structure RankedResult where
  id : String
  text : String
  metadata : Meta
  score : ℚ
deriving DecidableEq, Repr

def defaultDoc : RankedResult := ⟨"", "", defaultMeta, 0⟩

/-- A fused result: the payload of the first occurrence plus the
accumulated `rrf_score`. -/
structure FusedResult where
  id : String
  text : String
  metadata : Meta
  score : ℚ
  rrf_score : ℚ
deriving DecidableEq, Repr

/-- `settings.rrf_k` (config.py). -/
def rrf_k : ℚ := 60

/-- The body of the inner loop of `reciprocal_rank_fusion`
(hybrid_search.py lines 34-39): state is the pair of dicts
`(rrf_scores, docs)`, the step processes one `(rank, doc)` pair. -/
def rrfStep (k : ℚ) (st : List (String × ℚ) × List (String × RankedResult))
    (rd : ℕ × RankedResult) : List (String × ℚ) × List (String × RankedResult) :=
  let doc_id := rd.2.id
  (dictSet st.1 doc_id (dictGetD st.1 doc_id 0 + 1 / (k + (rd.1 : ℚ))),
   if dictMem doc_id st.2 then st.2 else st.2 ++ [(doc_id, rd.2)])

/-- `reciprocal_rank_fusion` (hybrid_search.py lines 14-50): accumulate
`1/(k+rank)` per 1-based rank into `rrf_scores`, keep the first payload per
id in `docs`, sort the ids by score descending (stable) and attach the
score as `rrf_score`. -/
def reciprocal_rank_fusion (result_lists : List (List RankedResult)) (k : ℚ) :
    List FusedResult :=
  let st := result_lists.foldl (fun st l => (l.enumFrom 1).foldl (rrfStep k) st) ([], [])
  let sorted_ids := sortDesc (fun i => dictGetD st.1 i 0) (dictKeys st.1)
  sorted_ids.map (fun i =>
    let d := dictGetD st.2 i defaultDoc
    ⟨d.id, d.text, d.metadata, d.score, dictGetD st.1 i 0⟩)

/-- The rank of an id in a ranked list, counting from `r`. -/
def rankInAux (i : String) : List RankedResult → ℕ → Option ℕ
  | [], _ => none
  | d :: rest, r => if d.id = i then some r else rankInAux i rest (r + 1)

/-- Spec-side: the 1-based rank of an id in a ranked list, `none` when the
id does not appear. -/
def rankIn (l : List RankedResult) (i : String) : Option ℕ :=
  rankInAux i l 1

/-- Spec-side: the accumulated RRF score of the spec (§4.3): over the input
lists containing the id, sum `1/(k + rank)`. -/
def specScore (k : ℚ) (lists : List (List RankedResult)) (i : String) : ℚ :=
  (lists.map (fun l =>
    match rankIn l i with
    | some r => 1 / (k + (r : ℚ))
    | none => 0)).sum

/-- Deduplicate keeping first occurrences, with an accumulator of ids
already seen. -/
def dedupFirstAux (seen : List String) : List String → List String
  | [] => []
  | x :: xs =>
    if x ∈ seen then dedupFirstAux seen xs
    else x :: dedupFirstAux (x :: seen) xs

/-- Spec-side: document ids in first-seen order across the concatenated
input lists. -/
def firstSeenIds (lists : List (List RankedResult)) : List String :=
  dedupFirstAux [] (lists.flatten.map RankedResult.id)

/-- All `(rank, doc)` pairs the fusion's nested loops process, in
processing order. -/
def rrfEnts (lists : List (List RankedResult)) : List (ℕ × RankedResult) :=
  (lists.map (fun l => l.enumFrom 1)).flatten

/-- The total score an id accumulates from a sequence of `(rank, doc)`
pairs: `1/(k + rank)` for each pair carrying it. -/
def sumInc (k : ℚ) (ents : List (ℕ × RankedResult)) (i : String) : ℚ :=
  ((ents.filter (fun rd => decide (rd.2.id = i))).map
    (fun rd => 1 / (k + (rd.1 : ℚ)))).sum

/-- The payload of the first `(rank, doc)` pair carrying an id. -/
def firstDocOf (ents : List (ℕ × RankedResult)) (i : String) :
    Option RankedResult :=
  (ents.find? (fun rd => decide (rd.2.id = i))).map (fun rd => rd.2)

/-- `settings.crag_relevance_threshold` (config.py line 18). -/
def crag_relevance_threshold : ℚ := 1/5

/-- A chunk as the CRAG gate sees it: a fused result dict which will get a
`relevance` key; `rrf_score` and `score` already present (or defaulting
to 0). -/
structure EvalChunk where
  id : String
  text : String
  metadata : Meta
  score : ℚ
  rrf_score : ℚ
  relevance : ℚ
deriving DecidableEq, Repr

/-- `EmbeddingService.cosine_similarity` (embeddings.py lines 43-47): a plain
dot product of the two (assumed L2-normalised) vectors. -/
def cosineSim (a b : List ℚ) : ℚ :=
  ((a.zip b).map (fun p => p.1 * p.2)).sum

/-- The chunk loop of `CRAGEvaluator.evaluate` (crag.py lines 53-73): embed
each chunk's text, set its `relevance` to the combined score, and collect
the chunks whose combined score reaches the threshold, in input order.
An embedding failure aborts the whole loop. -/
def evalLoop {ε : Type} (embed : String → Except ε (List ℚ)) (qe : List ℚ)
    (t : ℚ) : List EvalChunk → Except ε (List EvalChunk)
  | [] => .ok []
  | c :: rest => do
    let ce ← embed c.text
    let combined := cosineSim qe ce + (if c.rrf_score > 1/100 then 5/100 else 0)
    let c' : EvalChunk := { c with relevance := combined }
    let others ← evalLoop embed qe t rest
    pure (if c'.relevance ≥ t then c' :: others else others)

/-- `CRAGEvaluator.evaluate` (crag.py lines 30-84), with the embedding
collaborator passed in as a fallible `embed_single`. Note line 47:
`threshold = threshold or settings.crag_relevance_threshold` replaces a
falsy (`None` or `0.0`) argument by the configured default. -/
def evaluate {ε : Type} (embed : String → Except ε (List ℚ)) (query : String)
    (retrieved_chunks : List EvalChunk) (threshold : Option ℚ) :
    Except ε (String × List EvalChunk) :=
  if retrieved_chunks.isEmpty then .ok ("insufficient", [])
  else do
    let t := match threshold with
      | none => crag_relevance_threshold
      | some v => if v = 0 then crag_relevance_threshold else v
    let query_embedding ← embed query
    let passing ← evalLoop embed query_embedding t retrieved_chunks
    if passing.isEmpty then pure ("insufficient", [])
    else
      let status :=
        if ((passing.length : ℚ) / (retrieved_chunks.length : ℚ)) ≥ 1/2
        then "grounded" else "partial"
      pure (status, sortDesc EvalChunk.relevance passing)

/-- An embedding collaborator that always succeeds, computing `f`. -/
def okEmbed (f : String → List ℚ) : String → Except Unit (List ℚ) :=
  fun s => .ok (f s)

/-- Spec-side (§4.4): the gate's annotation of one chunk — `relevance`
becomes direct cosine similarity plus a 0.05 boost when the chunk's
`rrf_score` exceeds 0.01. -/
def annotChunk (f : String → List ℚ) (query : String) (c : EvalChunk) :
    EvalChunk :=
  { c with relevance := cosineSim (f query) (f c.text) +
      (if c.rrf_score > 1/100 then 5/100 else 0) }

/-- Spec-side: the threshold `evaluate` actually compares against, given the
`threshold` argument (falsy arguments are replaced by the default). -/
def effThreshold : Option ℚ → ℚ
  | none => crag_relevance_threshold
  | some v => if v = 0 then crag_relevance_threshold else v

/-- A whitespace character in the sense of Python's `str.strip()`
(Py_UNICODE_ISSPACE): 0x09-0x0d, 0x1c-0x1f, the space, NEL (0x85),
NBSP (0xa0), Ogham space mark, the Unicode space separators
0x2000-0x200a, the line and paragraph separators, the narrow no-break
space, the medium mathematical space and the ideographic space. -/
def isPySpace (c : Char) : Bool :=
  c = ' ' || c = '\t' || c = '\n' || c = '\r' || c = '\x0b' || c = '\x0c' ||
  c = '\x1c' || c = '\x1d' || c = '\x1e' || c = '\x1f' ||
  c = '\x85' || c = '\xa0' || c = '\u1680' ||
  ('\u2000' ≤ c && c ≤ '\u200A') ||
  c = '\u2028' || c = '\u2029' || c = '\u202F' || c = '\u205F' || c = '\u3000'

/-- Python `s.strip()`. -/
def pyStrip (s : List Char) : List Char :=
  ((s.dropWhile isPySpace).reverse.dropWhile isPySpace).reverse

/-- Whether `sub` occurs in `s` starting at index `i`. -/
def occursAt (sub s : List Char) (i : ℕ) : Bool :=
  (s.drop i).take sub.length == sub

/-- Scan downwards from index `i` for the rightmost occurrence of `sub`. -/
def rfindAux (sub s : List Char) : ℕ → Option ℕ
  | 0 => if occursAt sub s 0 then some 0 else none
  | i + 1 => if occursAt sub s (i + 1) then some (i + 1) else rfindAux sub s i

/-- Python `s.rfind(sub, 0, stop)` for non-empty `sub`: the highest index of
an occurrence of `sub` contained in `s[0:stop]`, `none` when there is
none. -/
def pyRfind (sub s : List Char) (stop : ℕ) : Option ℕ :=
  if sub.length ≤ stop then rfindAux sub s (stop - sub.length) else none

def nl2 : List Char := ['\n', '\n']

def nl1 : List Char := ['\n']

def dotSpace : List Char := ['.', ' ']

def space1 : List Char := [' ']

/-- The split-point search of `_recursive_split`'s loop body
(ingestion.py lines 44-55): try the boundaries `"\n\n"`, `"\n"`, `". "`,
`" "` in priority order (rightmost occurrence whose end is at or before
`chunk_size`), else hard-cut at exactly `chunk_size`. The returned index is
`last_b_idx + len(b)`. -/
def findSplit (t : List Char) (chunk_size : ℕ) : ℕ :=
  match pyRfind nl2 t chunk_size with
  | some i => i + 2
  | none =>
    match pyRfind nl1 t chunk_size with
    | some i => i + 1
    | none =>
      match pyRfind dotSpace t chunk_size with
      | some i => i + 2
      | none =>
        match pyRfind space1 t chunk_size with
        | some i => i + 1
        | none => chunk_size

/-- The `while len(text_to_process) > chunk_size` loop of `_recursive_split`
(ingestion.py lines 42-67) with explicit fuel, including the final
emission of the stripped remainder; `none` means the Python loop has not
terminated within `fuel` iterations. Note the advance
`text_to_process[max(0, split_idx - overlap):]`, which is
`drop (split_idx - overlap)` in truncated ℕ subtraction. -/
def splitLoop (chunk_size overlap : ℕ) :
    ℕ → List (List Char) → List Char → Option (List (List Char))
  | 0, _, _ => none
  | fuel + 1, chunks, t =>
    if t.length ≤ chunk_size then
      some (chunks ++ if (pyStrip t).isEmpty then [] else [pyStrip t])
    else
      let split_idx := findSplit t chunk_size
      let c := pyStrip (t.take split_idx)
      splitLoop chunk_size overlap fuel
        (chunks ++ if c.isEmpty then [] else [c])
        (t.drop (split_idx - overlap))

/-- `_recursive_split(text, chunk_size, overlap)` (ingestion.py lines
26-69), fuelled. -/
def recursive_split (text : List Char) (chunk_size overlap : ℕ) (fuel : ℕ) :
    Option (List (List Char)) :=
  if (pyStrip text).isEmpty then some []
  else if text.length ≤ chunk_size then some [pyStrip text]
  else splitLoop chunk_size overlap fuel [] text

/-- `settings.chunk_size` (config.py line 20). -/
def chunk_size : ℕ := 512

/-- `settings.chunk_overlap` (config.py line 21). -/
def chunk_overlap : ℕ := 64

/-- No boundary — paragraph break, line break, sentence terminator plus
space, or plain space — occurs (ending) at or before offset `chunk_size`,
so the loop body hard-cuts. -/
def hardCutAt (t : List Char) (cs : ℕ) : Prop :=
  pyRfind nl2 t cs = none ∧ pyRfind nl1 t cs = none ∧
  pyRfind dotSpace t cs = none ∧ pyRfind space1 t cs = none

/-- A chunk as produced by ingestion (the `Chunk` dataclass,
ingestion.py lines 15-23). -/
structure Chunk where
  chunk_id : String
  document_id : String
  filename : String
  text : String
  page_number : Option ℕ
  chunk_index : ℕ
  metadata : Meta
deriving DecidableEq, Repr

/-- A word character of the `\b\w+\b` tokenizer regex (approximating the
unicode word class). -/
def isWordChar (c : Char) : Bool := c.isAlphanum || c = '_'

/-- Maximal runs of word characters, accumulator-first. -/
def wordsAux : List Char → List Char → List (List Char)
  | cur, [] => if cur.isEmpty then [] else [cur.reverse]
  | cur, c :: rest =>
    if isWordChar c then wordsAux (c :: cur) rest
    else if cur.isEmpty then wordsAux [] rest
    else cur.reverse :: wordsAux [] rest

/-- The fixed Spanish stop-word set of `_tokenize` (bm25_store.py line 20). -/
def stop_words : List String :=
  ["de", "la", "el", "en", "y", "a", "los", "las", "un", "una", "que", "es", "del"]

/-- `_tokenize` (bm25_store.py lines 14-21): lower-case, extract word runs,
drop stop words and single-character tokens. -/
def tokenize (text : String) : List String :=
  ((wordsAux [] text.toLower.toList).map (fun w => String.mk w)).filter
    (fun t => !(stop_words.contains t) && t.length > 1)

/-- The observable state of `BM25Store`: the three aligned sequences, the
`BM25Okapi` model (represented by the tokenized corpus it was built from,
`none` standing for Python `None`), and the persisted pickle file's
content. -/
structure BM25State where
  ids : List String
  texts : List String
  metas : List Meta
  model : Option (List (List String))
  file : Option (List String × List String × List Meta)
deriving DecidableEq, Repr

/-- `BM25Store._rebuild_bm25` (bm25_store.py lines 59-66): `None` for an
empty corpus, else the model built from the tokenized texts. -/
def rebuildBM25 (texts : List String) : Option (List (List String)) :=
  if texts.isEmpty then none else some (texts.map tokenize)

/-- `BM25Store._save` (bm25_store.py lines 49-57): persist the three aligned
sequences. -/
def saveFile (s : BM25State) : BM25State :=
  { s with file := some (s.ids, s.texts, s.metas) }

/-- The state of a freshly constructed store before any load (bm25_store.py
lines 27-33 with no persisted file). -/
def initialState : BM25State :=
  { ids := [], texts := [], metas := [], model := none, file := none }

/-- `BM25Store._load` succeeding on persisted content `f` (bm25_store.py
lines 35-47): install the three sequences and rebuild the model. -/
def loadState (f : List String × List String × List Meta) : BM25State :=
  { ids := f.1, texts := f.2.1, metas := f.2.2,
    model := rebuildBM25 f.2.1, file := some f }

/-- `BM25Store.add_chunks` (bm25_store.py lines 68-76): append each chunk's
id, text and metadata, rebuild the model, persist. -/
def add_chunks (s : BM25State) (chunks : List Chunk) : BM25State :=
  let ids := s.ids ++ chunks.map Chunk.chunk_id
  let texts := s.texts ++ chunks.map Chunk.text
  let metas := s.metas ++ chunks.map Chunk.metadata
  saveFile { ids := ids, texts := texts, metas := metas,
             model := rebuildBM25 texts, file := s.file }

/-- `BM25Store.delete_document` (bm25_store.py lines 117-133): keep the
indices whose metadata's document id differs; if everything is kept, return
unchanged (no rebuild, no persist), else select the kept indices from all
three sequences, rebuild and persist. -/
def delete_document (s : BM25State) (document_id : String) : BM25State :=
  let keep := (List.range s.metas.length).filter
    (fun i => decide ((s.metas.getD i defaultMeta).document_id ≠ document_id))
  if keep.length = s.ids.length then s
  else
    let ids := keep.map (fun i => s.ids.getD i "")
    let texts := keep.map (fun i => s.texts.getD i "")
    let metas := keep.map (fun i => s.metas.getD i defaultMeta)
    saveFile { ids := ids, texts := texts, metas := metas,
               model := rebuildBM25 texts, file := s.file }

/-- An entry of the vector store's full dump (`{id, text, metadata}`). -/
structure StoredChunk where
  id : String
  text : String
  metadata : Meta
deriving DecidableEq, Repr

/-- `BM25Store.rebuild_from_store` (bm25_store.py lines 135-142): replace
the whole corpus from the dump, rebuild and persist. -/
def rebuild_from_store (s : BM25State) (all_chunks : List StoredChunk) :
    BM25State :=
  let ids := all_chunks.map StoredChunk.id
  let texts := all_chunks.map StoredChunk.text
  let metas := all_chunks.map StoredChunk.metadata
  saveFile { ids := ids, texts := texts, metas := metas,
             model := rebuildBM25 texts, file := s.file }

/-- `max(scores)` over a (in context non-empty) score list. -/
def maxScore (scores : List ℚ) : ℚ := scores.foldl max (scores.headD 0)

/-- The collection filter of `BM25Store.search` (bm25_store.py line 103):
`collection_name and meta.get("collection_name", "default") !=
collection_name` — an absent or empty (falsy) filter rejects nothing. -/
def collRejects (collection_name : Option String) (m : Meta) : Bool :=
  match collection_name with
  | none => false
  | some c => if c = "" then false else m.collection_name != c

/-- `BM25Store.search` (bm25_store.py lines 78-115), with the `BM25Okapi`
scoring function (an external library) passed in as `get_scores`, which
returns one raw score per corpus entry. Scores are normalised by the batch
maximum (or 1 when the maximum is not positive), entries with normalised
score ≤ 0.001 are dropped, the optional collection filter is applied, and
the hits are sorted by score descending and truncated. -/
def searchBM25 (get_scores : List (List String) → List String → List ℚ)
    (s : BM25State) (query : String) (collection_name : Option String)
    (top_k : ℕ) : List RankedResult :=
  match s.model with
  | none => []
  | some corpus =>
    if s.texts.isEmpty then []
    else
      let query_tokens := tokenize query
      let scores := get_scores corpus query_tokens
      let mx := maxScore scores
      let max_score := if mx > 0 then mx else 1
      let normalized := scores.map (· / max_score)
      let hits := (List.range normalized.length).filterMap (fun i =>
        let score := normalized.getD i 0
        if score ≤ 1/1000 then none
        else
          let m := s.metas.getD i defaultMeta
          if collRejects collection_name m then none
          else some (⟨s.ids.getD i "", s.texts.getD i "", m, score⟩ : RankedResult))
      (sortDesc RankedResult.score hits).take top_k

/-- `HybridSearch.search` (hybrid_search.py lines 58-82), with the two
underlying read-only fetches passed in as functions
`(query, collection filter, fetch size) → ranked results`. -/
def hybrid_search (sem lex : String → Option String → ℕ → List RankedResult)
    (query : String) (collection_name : Option String) (top_k : ℕ) :
    List FusedResult :=
  let fetch_k := max (top_k * 3) 15
  let semantic_results := sem query collection_name fetch_k
  let bm25_results := lex query collection_name fetch_k
  if semantic_results.isEmpty && bm25_results.isEmpty then []
  else
    (reciprocal_rank_fusion
      (([semantic_results, bm25_results]).filter (fun l => !l.isEmpty))
      rrf_k).take top_k

/-- A `Citation` (models/schemas.py) as `_extract_citations` builds it. -/
structure Citation where
  document_id : String
  filename : String
  chunk_text : String
  page_number : Option ℤ
  relevance_score : ℚ
deriving DecidableEq, Repr

/-- A context chunk as the generator receives it: the dict may or may not
carry `relevance` / `rrf_score` keys, hence the options. -/
structure GenChunk where
  text : String
  metadata : Meta
  relevance : Option ℚ
  rrf_score : Option ℚ
deriving DecidableEq, Repr

/-- `int(page)` guarded by `page and page != "unknown"` with
`ValueError`/`TypeError` mapped to `None` (generator.py lines 37-41). -/
def parsePage (page : String) : Option ℤ :=
  if page = "" || page = "unknown" then none else page.toInt?

/-- Python `round(x, 4)`, modelled as rounding to the nearest 1/10000. -/
def round4 (x : ℚ) : ℚ := (round (x * 10000) : ℤ) / 10000

/-- `_extract_citations` (generator.py lines 32-50). -/
def extract_citations (chunks : List GenChunk) : List Citation :=
  chunks.map (fun c =>
    { document_id := c.metadata.document_id,
      filename := c.metadata.filename,
      chunk_text := c.text.take 400 ++ (if c.text.length > 400 then "..." else ""),
      page_number := parsePage c.metadata.page_number,
      relevance_score := round4 (c.relevance.getD (c.rrf_score.getD 0)) })

/-- `INSUFFICIENT_RESPONSE` (crag.py lines 17-21). -/
def INSUFFICIENT_RESPONSE : String :=
  "No tengo información suficiente en los documentos proporcionados para responder esta pregunta con certeza. Por favor, sube documentos que contengan información sobre este tema."

/-- `settings.llm_provider` (config.py line 9). -/
def llm_provider : String := "ollama"

/-- The degraded answer string built in the `except` branch of
`Generator.generate` (generator.py lines 134-139), as a function of the
caught exception's message. -/
def llmErrorAnswer (e : String) : String :=
  "Error al conectar con el LLM (" ++ llm_provider ++
  "). Asegúrate de que Ollama esté ejecutándose con `ollama serve`. Error: " ++
  e.take 100

/-- `Generator.generate` (generator.py lines 98-142), with the provider call
(`_call_ollama` / `_call_openai`) passed in as its `Except` outcome: a
raised exception — network error or timeout — is the `.error` case and is
caught, replacing the answer only; citations are computed from the context
chunks either way. -/
def generate (llm : Except String String) (question : String)
    (context_chunks : List GenChunk) (crag_status : String) :
    String × List Citation :=
  if crag_status = "insufficient" then (INSUFFICIENT_RESPONSE, [])
  else
    let answer := match llm with
      | .ok a => a
      | .error e => llmErrorAnswer e
    (answer, extract_citations context_chunks)

/-! Concrete inputs used by counterexamples and witnesses, and spec-side
predicates. -/

/-- Spec-side (§4.4): the chunks that pass the gate at threshold `t`, in
input order — each chunk annotated with its combined relevance, kept iff
that relevance reaches the threshold. -/
def gatePassing (f : String → List ℚ) (q : String) (t : ℚ)
    (chunks : List EvalChunk) : List EvalChunk :=
  (chunks.map (annotChunk f q)).filter (fun c => decide (c.relevance ≥ t))

/-- An embedding under which the query and the chunk text have cosine
similarity 0.1. -/
def crag0F : String → List ℚ := fun s => if s = "q" then [1] else [1/10]

/-- A chunk with `rrf_score` 0 (no boost). -/
def crag0Chunk : EvalChunk := ⟨"c1", "c", defaultMeta, 0, 0, 0⟩

/-- An input on which `_recursive_split(·, 3, 3)` never advances: the best
split point (after `"\n\n"`) is at index 3 and the overlap backs up past
it, so `text_to_process` never changes. -/
def loopInputSmall : List Char := "a\n\nxxxx".toList

/-- The same phenomenon at the configured sizes (512/64): the only
boundary in the 512-character window ends at index 3 ≤ overlap. -/
def loopInputConfigured : List Char := 'a' :: '\n' :: '\n' :: List.replicate 600 'x'

/-- A text whose first 3-character window has no boundary at all, so the
loop hard-cuts, but whose cut prefix `"x\t\t"` strips down to one
character. -/
def hardCutInput : List Char := "x\t\t\t\t".toList

/-- The Lexical Index alignment invariant (spec §3): the three sequences
have equal length. -/
def alignedInv (s : BM25State) : Prop :=
  s.ids.length = s.texts.length ∧ s.texts.length = s.metas.length

/-- Three distinct concrete ranked results for the `fuse([[a,b,c]], 60)`
example of spec §8. -/
def docA : RankedResult := ⟨"a", "ta", defaultMeta, 9/10⟩

def docB : RankedResult := ⟨"b", "tb", defaultMeta, 8/10⟩

def docC : RankedResult := ⟨"c", "tc", defaultMeta, 7/10⟩

/-! ### Generic lemmas about the stable descending sort -/

theorem insertDesc_perm {α : Type} (key : α → ℚ) (x : α) (l : List α) :
    (insertDesc key x l).Perm (x :: l) := by
  induction l with
  | nil => exact List.Perm.refl _
  | cons y ys ih =>
    rw [insertDesc]
    split
    · exact ((ih.cons y).trans (List.Perm.swap x y ys))
    · exact List.Perm.refl _

theorem sortDesc_perm {α : Type} (key : α → ℚ) (l : List α) :
    (sortDesc key l).Perm l := by
  induction l with
  | nil => exact List.Perm.refl _
  | cons x xs ih => exact (insertDesc_perm key x _).trans (ih.cons x)

theorem mem_sortDesc {α : Type} {key : α → ℚ} {l : List α} {a : α} :
    a ∈ sortDesc key l ↔ a ∈ l :=
  (sortDesc_perm key l).mem_iff

theorem insertDesc_pairwise {α : Type} (key : α → ℚ) (x : α) {l : List α}
    (h : l.Pairwise (fun a b => key a ≥ key b)) :
    (insertDesc key x l).Pairwise (fun a b => key a ≥ key b) := by
  induction l with
  | nil => simp [insertDesc]
  | cons y ys ih =>
    rw [insertDesc]
    rcases List.pairwise_cons.mp h with ⟨hy, hys⟩
    split
    · refine List.pairwise_cons.mpr ⟨?_, ih hys⟩
      intro z hz
      rcases List.mem_cons.mp ((insertDesc_perm key x ys).mem_iff.mp hz) with rfl | hzys
      · exact le_of_lt (by assumption)
      · exact hy z hzys
    · refine List.pairwise_cons.mpr ⟨?_, h⟩
      intro z hz
      rcases List.mem_cons.mp hz with rfl | hzys
      · exact le_of_not_lt (by assumption)
      · exact le_trans (hy z hzys) (le_of_not_lt (by assumption))

theorem sortDesc_pairwise {α : Type} (key : α → ℚ) (l : List α) :
    (sortDesc key l).Pairwise (fun a b => key a ≥ key b) := by
  induction l with
  | nil => simp [sortDesc]
  | cons x xs ih => exact insertDesc_pairwise key x ih

theorem insertDesc_congr {α : Type} {f g : α → ℚ} (x : α) {l : List α}
    (hx : f x = g x) (hl : ∀ a ∈ l, f a = g a) :
    insertDesc f x l = insertDesc g x l := by
  induction l with
  | nil => rfl
  | cons y ys ih =>
    have hy := hl y (List.mem_cons_self y ys)
    have hys : ∀ a ∈ ys, f a = g a := fun a ha => hl a (List.mem_cons_of_mem y ha)
    rw [insertDesc, insertDesc, hx, hy, ih hys]

theorem sortDesc_congr {α : Type} {f g : α → ℚ} {l : List α}
    (h : ∀ a ∈ l, f a = g a) : sortDesc f l = sortDesc g l := by
  induction l with
  | nil => rfl
  | cons x xs ih =>
    have hx := h x (List.mem_cons_self x xs)
    have hxs : ∀ a ∈ xs, f a = g a := fun a ha => h a (List.mem_cons_of_mem x ha)
    rw [sortDesc, sortDesc, ih hxs]
    exact insertDesc_congr x hx
      (fun a ha => hxs a (mem_sortDesc.mp ha))

theorem insertDesc_filter_key_eq {α : Type} (key : α → ℚ) {x : α} {v : ℚ}
    (hx : key x = v) (l : List α) :
    (insertDesc key x l).filter (fun a => decide (key a = v)) =
      x :: l.filter (fun a => decide (key a = v)) := by
  induction l with
  | nil => simp [insertDesc, hx]
  | cons y ys ih =>
    rw [insertDesc]
    split
    · have hy : ¬ (key y = v) := by
        subst hx
        exact ne_of_gt (by assumption)
      simp only [List.filter_cons]
      rw [if_neg (by simpa using hy), if_neg (by simpa using hy), ih]
    · simp [List.filter_cons, hx]

theorem insertDesc_filter_key_ne {α : Type} (key : α → ℚ) {x : α} {v : ℚ}
    (hx : ¬ key x = v) (l : List α) :
    (insertDesc key x l).filter (fun a => decide (key a = v)) =
      l.filter (fun a => decide (key a = v)) := by
  induction l with
  | nil => simp [insertDesc, hx]
  | cons y ys ih =>
    rw [insertDesc]
    split
    · simp only [List.filter_cons]
      rw [ih]
    · simp [List.filter_cons, hx]

/-- Stability of the sort, expressed through filters: the elements of any
fixed key value keep their original relative order. -/
theorem sortDesc_filter_key {α : Type} (key : α → ℚ) (v : ℚ) (l : List α) :
    (sortDesc key l).filter (fun a => decide (key a = v)) =
      l.filter (fun a => decide (key a = v)) := by
  induction l with
  | nil => rfl
  | cons x xs ih =>
    rw [sortDesc]
    by_cases hx : key x = v
    · rw [insertDesc_filter_key_eq key hx, ih, List.filter_cons,
        if_pos (by simpa using hx)]
    · rw [insertDesc_filter_key_ne key hx, ih, List.filter_cons,
        if_neg (by simpa using hx)]

/-! ### The gate's chunk loop under a working embedding collaborator -/

/-- With a total embedding function, the gate's chunk loop returns exactly
the annotated chunks that reach the threshold, in input order. -/
theorem evalLoop_ok (f : String → List ℚ) (q : String) (t : ℚ)
    (chunks : List EvalChunk) :
    evalLoop (okEmbed f) (f q) t chunks =
      .ok ((chunks.map (annotChunk f q)).filter
        (fun c => decide (c.relevance ≥ t))) := by
  induction chunks with
  | nil => rfl
  | cons c rest ih =>
    simp only [evalLoop, okEmbed, ih, List.map_cons, List.filter_cons,
      Bind.bind, Except.bind, pure, Except.pure, annotChunk]
    split <;> simp_all

/-! ### C9 — generation failure degrades the answer, not the citations -/

/-- C9: for every question, context chunk list and non-insufficient gate
status, a failing generation call is caught: `generate` returns the
explicit degraded error-answer string together with the citations computed
from the gate's passing chunks — exactly the citations it returns when the
call succeeds. -/
theorem generator_failure_partial_success (e a q : String)
    (chunks : List GenChunk) (st : String) (hst : st ≠ "insufficient") :
    generate (.error e) q chunks st = (llmErrorAnswer e, extract_citations chunks) ∧
    (generate (.error e) q chunks st).2 = (generate (.ok a) q chunks st).2 := by
  unfold generate
  rw [if_neg hst]
  exact ⟨rfl, by rw [if_neg hst]⟩

/-- Witness for C9 at a concrete failing call. -/
theorem generator_failure_partial_success_witness :
    generate (.error "timeout") "q" [] "partial" =
      (llmErrorAnswer "timeout", extract_citations []) :=
  (generator_failure_partial_success "timeout" "ok" "q" [] "partial"
    (by decide)).1

/-! ### C10 — a threshold of 0.0 is replaced by the default -/

/-- C10: `evaluate` with an explicit threshold of 0.0 behaves exactly as
with `None` and as with the default 0.20; concretely, a chunk with
combined relevance 0.1 fails under threshold 0.0 although 0.1 ≥ 0. -/
theorem evaluate_threshold_falsy (f : String → List ℚ) (q : String)
    (chunks : List EvalChunk) :
    evaluate (okEmbed f) q chunks (some 0) = evaluate (okEmbed f) q chunks none ∧
    evaluate (okEmbed f) q chunks (some 0) =
      evaluate (okEmbed f) q chunks (some crag_relevance_threshold) ∧
    evaluate (okEmbed crag0F) "q" [crag0Chunk] (some 0) = .ok ("insufficient", []) ∧
    (annotChunk crag0F "q" crag0Chunk).relevance = 1/10 ∧ ((1:ℚ)/10 ≥ 0) := by
  refine ⟨?_, ?_, ?_, ?_, by norm_num⟩
  · unfold evaluate
    norm_num
  · unfold evaluate
    norm_num [crag_relevance_threshold]
  · simp only [evaluate, okEmbed, Bind.bind, Except.bind, evalLoop_ok, pure,
      Except.pure]
    norm_num +decide [crag0F, crag0Chunk, annotChunk, cosineSim,
      crag_relevance_threshold]
  · norm_num +decide [crag0F, crag0Chunk, annotChunk, cosineSim]

/-! ### C3 — the chunking loop does not terminate on some inputs -/

theorem splitLoop_small_step (fuel : ℕ) (acc : List (List Char)) :
    splitLoop 3 3 (fuel + 1) acc loopInputSmall =
      splitLoop 3 3 fuel (acc ++ [['a']]) loopInputSmall := by
  rfl

theorem splitLoop_small_none (fuel : ℕ) :
    ∀ acc, splitLoop 3 3 fuel acc loopInputSmall = none := by
  induction fuel with
  | zero => intro acc; rfl
  | succ n ih => intro acc; rw [splitLoop_small_step]; exact ih _

set_option maxRecDepth 10000 in
theorem splitLoop_big_step (fuel : ℕ) (acc : List (List Char)) :
    splitLoop 512 64 (fuel + 1) acc loopInputConfigured =
      splitLoop 512 64 fuel (acc ++ [['a']]) loopInputConfigured := by
  rfl

set_option maxRecDepth 10000 in
theorem splitLoop_big_none (fuel : ℕ) :
    ∀ acc, splitLoop 512 64 fuel acc loopInputConfigured = none := by
  induction fuel with
  | zero => intro acc; rfl
  | succ n ih => intro acc; rw [splitLoop_big_step]; exact ih _

set_option maxRecDepth 40000 in
/-- C3: `_recursive_split` is not total — on `"a\n\nxxxx"` with
`maxSize = overlap = 3`, and likewise on `"a\n\n" ++ "x"*600` at the
configured sizes (512, 64), the loop re-reads the same `text_to_process`
forever (the split point 3 is not past the overlap), so no amount of fuel
makes it return. -/
theorem recursive_split_nonterminating :
    (∀ fuel, recursive_split loopInputSmall 3 3 fuel = none) ∧
    (∀ fuel,
      recursive_split loopInputConfigured chunk_size chunk_overlap fuel = none) := by
  constructor
  · intro fuel
    show splitLoop 3 3 fuel [] loopInputSmall = none
    exact splitLoop_small_none fuel []
  · intro fuel
    show splitLoop 512 64 fuel [] loopInputConfigured = none
    exact splitLoop_big_none fuel []

/-! ### C7 — embedding failures propagate out of the gate -/

theorem evalLoop_error {ε : Type} (embed : String → Except ε (List ℚ))
    (qe : List ℚ) (t : ℚ) (chunks : List EvalChunk)
    (h : ∃ c ∈ chunks, ∃ er, embed c.text = .error er) :
    ∃ er, evalLoop embed qe t chunks = .error er := by
  induction chunks with
  | nil => simp at h
  | cons c rest ih =>
    obtain ⟨d, hd, er, herr⟩ := h
    cases hdc : embed c.text with
    | error e0 => exact ⟨e0, by simp [evalLoop, Bind.bind, Except.bind, hdc]⟩
    | ok ce =>
      rcases List.mem_cons.mp hd with rfl | hdr
      · rw [hdc] at herr; cases herr
      · obtain ⟨er', hrest⟩ := ih ⟨d, hdr, er, herr⟩
        exact ⟨er', by simp [evalLoop, Bind.bind, Except.bind, hdc, hrest]⟩

/-- C7: with an empty chunk list `evaluate` answers "insufficient" whatever
the embedding collaborator does (it is never consulted); with a non-empty
list, a failure of any needed embedding call makes the whole evaluation an
error — it is never converted into "insufficient" or any other normal
status. -/
theorem evaluate_embedding_failure_propagates {ε : Type}
    (embed : String → Except ε (List ℚ)) (q : String)
    (chunks : List EvalChunk) (th : Option ℚ) :
    (evaluate embed q [] th = .ok ("insufficient", [])) ∧
    (chunks ≠ [] →
      ((∃ er, embed q = .error er) ∨ ∃ c ∈ chunks, ∃ er, embed c.text = .error er) →
      ∃ er, evaluate embed q chunks th = .error er) := by
  constructor
  · rfl
  · intro hne hfail
    have hemp : chunks.isEmpty = false := by
      simpa [List.isEmpty_iff] using hne
    cases hq : embed q with
    | error er =>
      refine ⟨er, ?_⟩
      simp [evaluate, hemp, Bind.bind, Except.bind, hq]
    | ok qe =>
      rcases hfail with ⟨er, hq'⟩ | hfail
      · rw [hq] at hq'; cases hq'
      · obtain ⟨er', hloop⟩ := evalLoop_error embed qe
          (match th with
           | none => crag_relevance_threshold
           | some v => if v = 0 then crag_relevance_threshold else v)
          chunks hfail
        refine ⟨er', ?_⟩
        simp [evaluate, hemp, Bind.bind, Except.bind, hq, hloop]

/-- Witness for C7: a concrete always-failing collaborator on a concrete
non-empty chunk list yields an error. -/
theorem evaluate_embedding_failure_witness :
    ∃ er, evaluate (fun _ => .error "model unavailable") "q" [crag0Chunk]
      (some (1/5)) = .error er :=
  (evaluate_embedding_failure_propagates (fun _ => .error "model unavailable")
    "q" [crag0Chunk] (some (1/5))).2 (by decide)
    (Or.inl ⟨"model unavailable", rfl⟩)

/-! ### C8 — the hybrid search orchestrator -/

/-- C8: the orchestrator reads both sources at
`fetchK = max(topK*3, 15)` with the same collection filter; if both fetches
are empty the result is the empty list; otherwise exactly the non-empty
fetched lists are fused with RRF (k = 60) and the fused list truncated, so
at most `topK` results are returned. -/
theorem hybrid_search_spec
    (sem lex : String → Option String → ℕ → List RankedResult)
    (q : String) (coll : Option String) (top_k : ℕ) (htop : 1 ≤ top_k) :
    (sem q coll (max (top_k * 3) 15) = [] →
      lex q coll (max (top_k * 3) 15) = [] →
      hybrid_search sem lex q coll top_k = []) ∧
    (hybrid_search sem lex q coll top_k).length ≤ top_k ∧
    hybrid_search sem lex q coll top_k =
      (reciprocal_rank_fusion
        (([sem q coll (max (top_k * 3) 15),
           lex q coll (max (top_k * 3) 15)]).filter (fun l => !l.isEmpty))
        rrf_k).take top_k := by
  refine ⟨?_, ?_, ?_⟩
  · intro h1 h2
    simp [hybrid_search, h1, h2]
  · unfold hybrid_search
    dsimp only
    split
    · simp
    · exact List.length_take_le _ _
  · unfold hybrid_search
    dsimp only
    split
    · rename_i hb
      rcases Bool.and_eq_true_iff.mp hb with ⟨h1, h2⟩
      rw [List.isEmpty_iff] at h1 h2
      rw [h1, h2]
      simp [reciprocal_rank_fusion, sortDesc, dictKeys]
    · rfl

/-- Witness for C8 at concrete fetch functions and `topK = 1`. -/
theorem hybrid_search_spec_witness :
    hybrid_search (fun _ _ _ => []) (fun _ _ _ => []) "q" none 1 = [] :=
  (hybrid_search_spec (fun _ _ _ => []) (fun _ _ _ => []) "q" none 1
    (le_refl 1)).1 rfl rfl

/-! ### C2 — the relevance gate -/

/-- The full behaviour of `evaluate` under a working embedding
collaborator, on a non-empty chunk list, in terms of the spec-side
`gatePassing`. -/
theorem evaluate_ok_eq (f : String → List ℚ) (q : String)
    (chunks : List EvalChunk) (th : Option ℚ) (h : chunks ≠ []) :
    evaluate (okEmbed f) q chunks th =
      (if (gatePassing f q (effThreshold th) chunks).isEmpty
       then .ok ("insufficient", [])
       else .ok
         ((if ((gatePassing f q (effThreshold th) chunks).length : ℚ) /
              (chunks.length : ℚ) ≥ 1/2 then "grounded" else "partial"),
          sortDesc EvalChunk.relevance (gatePassing f q (effThreshold th) chunks))) := by
  have hemp : chunks.isEmpty = false := by
    simpa [List.isEmpty_iff] using h
  have hth : (match th with
      | none => crag_relevance_threshold
      | some v => if v = 0 then crag_relevance_threshold else v) = effThreshold th := by
    cases th <;> rfl
  simp only [evaluate, hemp, Bind.bind, Except.bind, okEmbed, hth, evalLoop_ok,
    gatePassing, pure, Except.pure]
  rfl

/-- C2 (amended): for every query, ranked chunk list and threshold
argument — where a falsy argument (`None` or 0.0) is replaced by the
default 0.20 — `evaluate` returns `("insufficient", [])` on an empty list;
otherwise each chunk is annotated with
`relevance = directSimilarity + boost` (`boost = 0.05` iff
`rrf_score > 0.01`), a chunk passes iff its relevance reaches the
effective threshold, no passing chunk yields `("insufficient", [])`, and
otherwise the status is "grounded" iff at least half the chunks pass, with
the passing chunks returned sorted by relevance descending. -/
theorem crag_evaluate_spec (f : String → List ℚ) (q : String)
    (chunks : List EvalChunk) (th : Option ℚ) :
    (chunks = [] → evaluate (okEmbed f) q chunks th = .ok ("insufficient", [])) ∧
    (chunks ≠ [] → gatePassing f q (effThreshold th) chunks = [] →
      evaluate (okEmbed f) q chunks th = .ok ("insufficient", [])) ∧
    (chunks ≠ [] → gatePassing f q (effThreshold th) chunks ≠ [] →
      evaluate (okEmbed f) q chunks th =
        .ok ((if ((gatePassing f q (effThreshold th) chunks).length : ℚ) /
                (chunks.length : ℚ) ≥ 1/2 then "grounded" else "partial"),
             sortDesc EvalChunk.relevance (gatePassing f q (effThreshold th) chunks))) ∧
    (sortDesc EvalChunk.relevance (gatePassing f q (effThreshold th) chunks)).Pairwise
      (fun a b => a.relevance ≥ b.relevance) := by
  refine ⟨?_, ?_, ?_, sortDesc_pairwise _ _⟩
  · rintro rfl
    rfl
  · intro h hp
    rw [evaluate_ok_eq f q chunks th h, hp]
    rfl
  · intro h hp
    rw [evaluate_ok_eq f q chunks th h,
      if_neg (by simpa [List.isEmpty_iff] using hp)]

/-- C2 counterexample to the claim as stated: under the explicit threshold
0.0 this chunk's combined relevance 0.1 satisfies `combined ≥ 0`, yet the
evaluation returns `("insufficient", [])` — the chunk did not pass, because
the falsy threshold 0.0 was replaced by the default 0.20. -/
theorem crag_evaluate_zero_threshold_cex :
    evaluate (okEmbed crag0F) "q" [crag0Chunk] (some 0) =
      .ok ("insufficient", []) ∧
    (annotChunk crag0F "q" crag0Chunk).relevance ≥ (0 : ℚ) := by
  constructor
  · simp only [evaluate, okEmbed, Bind.bind, Except.bind, evalLoop_ok, pure,
      Except.pure]
    norm_num +decide [crag0F, crag0Chunk, annotChunk, cosineSim,
      crag_relevance_threshold]
  · norm_num +decide [crag0F, crag0Chunk, annotChunk, cosineSim]

/-! ### C5 / C6 — the lexical index -/

theorem getD_mem {α : Type} {l : List α} {i : ℕ} (h : i < l.length) (d : α) :
    l.getD i d ∈ l := by
  rw [List.getD_eq_getElem?_getD, List.getElem?_eq_getElem h]
  exact List.getElem_mem h

/-- Selecting the kept indices from a parallel list is filtering the zip by
the predicate on the second component. -/
theorem selectIdx_eq_filter_zip {α β : Type} (P : β → Bool) (dx : α) (dm : β) :
    ∀ (ms : List β) (xs : List α), xs.length = ms.length →
      ((List.range ms.length).filter (fun i => P (ms.getD i dm))).map
          (fun i => xs.getD i dx) =
        ((xs.zip ms).filter (fun p => P p.2)).map Prod.fst := by
  intro ms
  induction ms with
  | nil =>
    intro xs h
    rw [List.length_eq_zero.mp h]
    rfl
  | cons m ms' ih =>
    intro xs h
    cases xs with
    | nil => simp at h
    | cons x xs' =>
      have h' : xs'.length = ms'.length := by
        simpa using h
      have hc : (fun i => P ((m :: ms').getD i dm)) ∘ Nat.succ =
          fun i => P (ms'.getD i dm) := by
        funext i
        simp [List.getD_cons_succ]
      have hmm : (fun i => (x :: xs').getD i dx) ∘ Nat.succ =
          fun i => xs'.getD i dx := by
        funext i
        simp [List.getD_cons_succ]
      rw [List.length_cons, List.range_succ_eq_map, List.filter_cons,
        List.filter_map, hc, List.zip_cons_cons, List.filter_cons]
      by_cases hPm : P ((m :: ms').getD 0 dm) = true
      · rw [if_pos hPm, if_pos (show P (x, m).2 = true by simpa using hPm),
          List.map_cons, List.map_map, hmm, ih xs' h', List.map_cons]
        rfl
      · rw [if_neg hPm, if_neg (show ¬ P (x, m).2 = true by simpa using hPm),
          List.map_map, hmm, ih xs' h']

/-- The zip-with-itself form reduces to a plain filter. -/
theorem filter_zip_self {β : Type} (P : β → Bool) :
    ∀ ms : List β,
      ((ms.zip ms).filter (fun p => P p.2)).map Prod.fst = ms.filter P := by
  intro ms
  induction ms with
  | nil => rfl
  | cons m ms' ih =>
    rw [List.zip_cons_cons, List.filter_cons, List.filter_cons]
    by_cases hPm : P m = true
    · rw [if_pos (show P (m, m).2 = true from hPm), if_pos hPm, List.map_cons, ih]
    · rw [if_neg (show ¬ P (m, m).2 = true from hPm), if_neg hPm, ih]

theorem alignedInv_add (s : BM25State) (chunks : List Chunk)
    (h : alignedInv s) : alignedInv (add_chunks s chunks) := by
  obtain ⟨h1, h2⟩ := h
  constructor <;> simp [add_chunks, saveFile, h1, h2]

theorem alignedInv_delete (s : BM25State) (d : String)
    (h : alignedInv s) : alignedInv (delete_document s d) := by
  obtain ⟨h1, h2⟩ := h
  unfold delete_document
  dsimp only
  split
  · exact ⟨h1, h2⟩
  · constructor <;> simp [saveFile]

/-- The three sequences after `delete_document`: exactly the aligned
entries whose metadata document id differs survive, in order. -/
theorem delete_document_components (s : BM25State) (d : String)
    (h : alignedInv s) :
    (delete_document s d).ids =
      ((s.ids.zip s.metas).filter
        (fun p => decide (p.2.document_id ≠ d))).map Prod.fst ∧
    (delete_document s d).texts =
      ((s.texts.zip s.metas).filter
        (fun p => decide (p.2.document_id ≠ d))).map Prod.fst ∧
    (delete_document s d).metas =
      s.metas.filter (fun m => decide (m.document_id ≠ d)) := by
  obtain ⟨h1, h2⟩ := h
  have hid : s.ids.length = s.metas.length := h1.trans h2
  unfold delete_document
  dsimp only
  split
  · rename_i hkeep
    -- nothing was deleted: every entry satisfies the predicate
    have hrange := (List.filter_sublist
      (p := fun i => decide ((s.metas.getD i defaultMeta).document_id ≠ d))
      (List.range s.metas.length)).eq_of_length
      (by rw [List.length_range]; omega)
    have hall : ∀ i ∈ List.range s.metas.length,
        decide ((s.metas.getD i defaultMeta).document_id ≠ d) = true :=
      List.filter_eq_self.mp hrange
    have hallm : ∀ m ∈ s.metas, decide (m.document_id ≠ d) = true := by
      intro m hm
      obtain ⟨i, hi, rfl⟩ := List.getElem_of_mem hm
      have := hall i (List.mem_range.mpr hi)
      rwa [List.getD_eq_getElem?_getD, List.getElem?_eq_getElem hi] at this
    refine ⟨?_, ?_, ?_⟩
    · rw [List.filter_eq_self.mpr ?_, List.map_fst_zip _ _ (le_of_eq hid)]
      rintro ⟨a, b⟩ hp
      exact hallm b (List.of_mem_zip hp).2
    · rw [List.filter_eq_self.mpr ?_, List.map_fst_zip _ _ (le_of_eq h2)]
      rintro ⟨a, b⟩ hp
      exact hallm b (List.of_mem_zip hp).2
    · rw [List.filter_eq_self.mpr hallm]
  · refine ⟨?_, ?_, ?_⟩
    · exact selectIdx_eq_filter_zip (fun m => decide (m.document_id ≠ d))
        "" defaultMeta s.metas s.ids hid
    · exact selectIdx_eq_filter_zip (fun m => decide (m.document_id ≠ d))
        "" defaultMeta s.metas s.texts h2
    · rw [selectIdx_eq_filter_zip (fun m => decide (m.document_id ≠ d))
        defaultMeta defaultMeta s.metas s.metas rfl,
        filter_zip_self (fun m => decide (m.document_id ≠ d)) s.metas]
      rfl

/-- A vacuous delete leaves the whole state — sequences, model, persisted
file — untouched. -/
theorem delete_document_noop (s : BM25State) (d : String) (h : alignedInv s)
    (hno : ∀ m ∈ s.metas, m.document_id ≠ d) : delete_document s d = s := by
  obtain ⟨h1, h2⟩ := h
  have hid : s.ids.length = s.metas.length := h1.trans h2
  have hall : ∀ i ∈ List.range s.metas.length,
      (fun i => decide ((s.metas.getD i defaultMeta).document_id ≠ d)) i = true := by
    intro i hi
    exact decide_eq_true
      (hno _ (getD_mem (List.mem_range.mp hi) defaultMeta))
  unfold delete_document
  dsimp only
  rw [List.filter_eq_self.mpr hall, List.length_range, if_pos hid.symm]

/-- Unfold a two-level guarded option: if it yields a value, it is the
unguarded one. -/
theorem ite_none_some {α : Type} {c₁ c₂ : Prop} [Decidable c₁] [Decidable c₂]
    {x r : α} (h : (if c₁ then none else if c₂ then none else some x) = some r) :
    r = x := by
  by_cases h1 : c₁
  · rw [if_pos h1] at h
    cases h
  · rw [if_neg h1] at h
    by_cases h2 : c₂
    · rw [if_pos h2] at h
      cases h
    · rw [if_neg h2] at h
      exact (Option.some_injective _ h).symm

/-- Every hit of `searchBM25` carries a metadata record of the index. -/
theorem searchBM25_meta_mem
    (gs : List (List String) → List String → List ℚ) (s : BM25State)
    (q : String) (coll : Option String) (k : ℕ)
    (hlen : ∀ corpus qt, (gs corpus qt).length = corpus.length)
    (h : alignedInv s) (hmodel : s.model = rebuildBM25 s.texts) :
    ∀ r ∈ searchBM25 gs s q coll k, r.metadata ∈ s.metas := by
  obtain ⟨h1, h2⟩ := h
  intro r hr
  unfold searchBM25 at hr
  rcases hm : s.model with _ | corpus
  · rw [hm] at hr
    simp at hr
  · rw [hm] at hr
    dsimp only at hr
    by_cases hte : s.texts.isEmpty
    · rw [if_pos hte] at hr
      simp at hr
    · rw [if_neg hte] at hr
      have hcorpus : corpus = s.texts.map tokenize := by
        rw [hm, rebuildBM25] at hmodel
        rw [if_neg hte] at hmodel
        exact Option.some_injective _ hmodel
      have hr' := mem_sortDesc.mp (List.take_subset _ _ hr)
      obtain ⟨i, hi, hfi⟩ := List.mem_filterMap.mp hr'
      have hilt : i < s.metas.length := by
        have := List.mem_range.mp hi
        rw [List.length_map, hlen, hcorpus, List.length_map] at this
        omega
      have hreq := ite_none_some hfi
      rw [hreq]
      exact getD_mem hilt defaultMeta

/-- C5: the alignment invariant `len(ids) = len(texts) = len(metadatas)`
holds in the empty initial state and is preserved by `add_chunks`,
`delete_document`, `rebuild_from_store`, and loading a persisted state. -/
theorem bm25_alignment_invariant :
    alignedInv initialState ∧
    (∀ s chunks, alignedInv s → alignedInv (add_chunks s chunks)) ∧
    (∀ s d, alignedInv s → alignedInv (delete_document s d)) ∧
    (∀ s dump, alignedInv (rebuild_from_store s dump)) ∧
    (∀ s, alignedInv s → alignedInv (loadState (s.ids, s.texts, s.metas))) := by
  refine ⟨⟨rfl, rfl⟩, alignedInv_add, alignedInv_delete, ?_, ?_⟩
  · intro s dump
    constructor <;> simp [rebuild_from_store, saveFile]
  · intro s h
    exact h

theorem add_chunks_model (s : BM25State) (chunks : List Chunk) :
    (add_chunks s chunks).model = rebuildBM25 (add_chunks s chunks).texts := rfl

theorem delete_document_model (s : BM25State) (d : String)
    (h : s.model = rebuildBM25 s.texts) :
    (delete_document s d).model = rebuildBM25 (delete_document s d).texts := by
  unfold delete_document
  dsimp only
  split
  · exact h
  · rfl

/-- C6: `deleteDocument` removes exactly the aligned entries whose metadata
document id matches, keeping every other entry in its original relative
order; when nothing matches, the whole state — sequences, scoring model and
persisted file — is returned unchanged (and no error is raised: the
operation is total); and after adding a document's chunks and then deleting
that document id, no search hit carries it. -/
theorem delete_document_frame :
    (∀ s d, alignedInv s →
      (delete_document s d).ids =
        ((s.ids.zip s.metas).filter
          (fun p => decide (p.2.document_id ≠ d))).map Prod.fst ∧
      (delete_document s d).texts =
        ((s.texts.zip s.metas).filter
          (fun p => decide (p.2.document_id ≠ d))).map Prod.fst ∧
      (delete_document s d).metas =
        s.metas.filter (fun m => decide (m.document_id ≠ d))) ∧
    (∀ s d, alignedInv s → (∀ m ∈ s.metas, m.document_id ≠ d) →
      delete_document s d = s) ∧
    (∀ gs s chunks d q coll k, alignedInv s →
      (∀ corpus qt, (gs corpus qt).length = corpus.length) →
      ∀ r ∈ searchBM25 gs (delete_document (add_chunks s chunks) d) q coll k,
        r.metadata.document_id ≠ d) := by
  refine ⟨delete_document_components, delete_document_noop, ?_⟩
  intro gs s chunks d q coll k h hlen r hr
  have h1 : alignedInv (add_chunks s chunks) := alignedInv_add s chunks h
  have h2 : alignedInv (delete_document (add_chunks s chunks) d) :=
    alignedInv_delete _ d h1
  have hm2 := delete_document_model (add_chunks s chunks) d
    (add_chunks_model s chunks)
  have hmem := searchBM25_meta_mem gs _ q coll k hlen h2 hm2 r hr
  rw [(delete_document_components (add_chunks s chunks) d h1).2.2] at hmem
  have := List.mem_filter.mp hmem
  simpa using this.2

/-! ### C4 — bounds on the segmenter's chunks -/

theorem pyStrip_length_le (l : List Char) : (pyStrip l).length ≤ l.length := by
  unfold pyStrip
  calc ((l.dropWhile isPySpace).reverse.dropWhile isPySpace).reverse.length
      = ((l.dropWhile isPySpace).reverse.dropWhile isPySpace).length :=
        List.length_reverse _
    _ ≤ (l.dropWhile isPySpace).reverse.length :=
        (List.dropWhile_sublist _).length_le
    _ = (l.dropWhile isPySpace).length := List.length_reverse _
    _ ≤ l.length := (List.dropWhile_sublist _).length_le

theorem headD_reverse {α : Type} (l : List α) (d : α) :
    l.reverse.headD d = l.getLastD d := by
  induction l using List.reverseRecOn with
  | nil => rfl
  | append_singleton xs x _ =>
    rw [List.reverse_append, List.getLastD_concat]
    rfl

/-- Stripping is the identity on a list that neither starts nor ends with
whitespace. -/
theorem pyStrip_eq_self (l : List Char)
    (hh : isPySpace (l.headD ' ') = false)
    (hl : isPySpace (l.getLastD ' ') = false) : pyStrip l = l := by
  cases l with
  | nil => simp [isPySpace] at hh
  | cons a l' =>
    have ha : isPySpace a = false := hh
    have hdw : List.dropWhile isPySpace (a :: l') = a :: l' := by
      rw [List.dropWhile_cons, ha]
      simp
    unfold pyStrip
    rw [hdw]
    rcases hrev : (a :: l').reverse with _ | ⟨b, rb⟩
    · have := congrArg List.length hrev
      simp at this
    · have hb : isPySpace b = false := by
        have := headD_reverse (a :: l') ' '
        rw [hrev] at this
        rw [show b = (b :: rb).headD ' ' from rfl, this]
        exact hl
      rw [List.dropWhile_cons, hb]
      simp [← hrev]

theorem dropWhile_eq_self_of_length {p : Char → Bool} {l : List Char}
    (h : (l.dropWhile p).length = l.length) : l.dropWhile p = l :=
  (List.dropWhile_sublist _).eq_of_length h

/-- If stripping removes nothing by length, neither `dropWhile` pass
removed anything. -/
theorem pyStrip_drop_eq (l : List Char) (h : (pyStrip l).length = l.length) :
    l.dropWhile isPySpace = l ∧ l.reverse.dropWhile isPySpace = l.reverse := by
  have e1 : (pyStrip l).length =
      ((l.dropWhile isPySpace).reverse.dropWhile isPySpace).length :=
    List.length_reverse _
  have le1 : ((l.dropWhile isPySpace).reverse.dropWhile isPySpace).length ≤
      (l.dropWhile isPySpace).reverse.length :=
    (List.dropWhile_sublist _).length_le
  have e2 : (l.dropWhile isPySpace).reverse.length =
      (l.dropWhile isPySpace).length := List.length_reverse _
  have le2 : (l.dropWhile isPySpace).length ≤ l.length :=
    (List.dropWhile_sublist _).length_le
  have hd1 : l.dropWhile isPySpace = l :=
    dropWhile_eq_self_of_length (by omega)
  have hstrip2 : pyStrip l = (l.reverse.dropWhile isPySpace).reverse := by
    unfold pyStrip
    rw [hd1]
  have hd2len : (l.reverse.dropWhile isPySpace).length = l.reverse.length := by
    rw [hstrip2, List.length_reverse] at h
    rw [List.length_reverse]
    exact h
  exact ⟨hd1, dropWhile_eq_self_of_length hd2len⟩

/-- A non-empty list unchanged by `dropWhile` fails the predicate at its
head. -/
theorem dropWhile_head_false {p : Char → Bool} {l : List Char} (hne : l ≠ [])
    (h : l.dropWhile p = l) : p (l.headD ' ') = false := by
  cases l with
  | nil => exact absurd rfl hne
  | cons a l' =>
    rw [List.dropWhile_cons] at h
    by_cases hpa : p a = true
    · rw [if_pos hpa] at h
      have hlen := congrArg List.length h
      have hle : (l'.dropWhile p).length ≤ l'.length :=
        (List.dropWhile_sublist _).length_le
      rw [List.length_cons] at hlen
      omega
    · simpa using hpa

/-- The trimmed length of a non-empty list equals its length exactly when
the list neither starts nor ends with whitespace. -/
theorem pyStrip_length_eq_iff (l : List Char) (hne : l ≠ []) :
    (pyStrip l).length = l.length ↔
      (isPySpace (l.headD ' ') = false ∧
       isPySpace (l.getLastD ' ') = false) := by
  constructor
  · intro h
    obtain ⟨hd1, hd2⟩ := pyStrip_drop_eq l h
    refine ⟨dropWhile_head_false hne hd1, ?_⟩
    have hrne : l.reverse ≠ [] := by
      intro hr
      rw [List.reverse_eq_nil_iff] at hr
      exact hne hr
    have hrev := dropWhile_head_false hrne hd2
    rwa [headD_reverse] at hrev
  · rintro ⟨hh, hl⟩
    rw [pyStrip_eq_self l hh hl]

theorem rfindAux_le (sub s : List Char) :
    ∀ j i, rfindAux sub s j = some i → i ≤ j := by
  intro j
  induction j with
  | zero =>
    intro i h
    rw [rfindAux] at h
    split at h
    · cases h
      exact le_refl 0
    · cases h
  | succ n ih =>
    intro i h
    rw [rfindAux] at h
    split at h
    · cases h
      exact le_refl _
    · exact le_trans (ih i h) (Nat.le_succ n)

theorem pyRfind_le {sub s : List Char} {stop i : ℕ}
    (h : pyRfind sub s stop = some i) : i + sub.length ≤ stop := by
  unfold pyRfind at h
  split at h
  · have := rfindAux_le sub s _ _ h
    omega
  · cases h

theorem findSplit_le (t : List Char) (cs : ℕ) : findSplit t cs ≤ cs := by
  unfold findSplit
  rcases h2 : pyRfind nl2 t cs with _ | i
  · rcases h1 : pyRfind nl1 t cs with _ | i
    · rcases hd : pyRfind dotSpace t cs with _ | i
      · rcases hs : pyRfind space1 t cs with _ | i
        · dsimp only
          exact le_refl cs
        · have := pyRfind_le hs
          simp [space1] at this
          dsimp only
          omega
      · have := pyRfind_le hd
        simp [dotSpace] at this
        dsimp only
        omega
    · have := pyRfind_le h1
      simp [nl1] at this
      dsimp only
      omega
  · have := pyRfind_le h2
    simp [nl2] at this
    dsimp only
    omega

/-- Every chunk the fuelled loop ever returns is at most `cs` long,
provided the chunks already accumulated are. -/
theorem splitLoop_bound (cs ov : ℕ) :
    ∀ fuel acc t out, splitLoop cs ov fuel acc t = some out →
      (∀ c ∈ acc, c.length ≤ cs) → ∀ c ∈ out, c.length ≤ cs := by
  intro fuel
  induction fuel with
  | zero =>
    intro acc t out h
    cases h
  | succ n ih =>
    intro acc t out h hacc
    rw [splitLoop] at h
    split at h
    · rename_i hle
      cases h
      intro c hc
      rcases List.mem_append.mp hc with hc | hc
      · exact hacc c hc
      · by_cases hemp : (pyStrip t).isEmpty = true
        · rw [if_pos hemp] at hc
          cases hc
        · rw [if_neg hemp] at hc
          rw [List.mem_singleton.mp hc]
          exact le_trans (pyStrip_length_le t) hle
    · refine ih _ _ _ h ?_
      intro c hc
      rcases List.mem_append.mp hc with hc | hc
      · exact hacc c hc
      · by_cases hemp : (pyStrip (t.take (findSplit t cs))).isEmpty = true
        · rw [if_pos hemp] at hc
          cases hc
        · rw [if_neg hemp] at hc
          rw [List.mem_singleton.mp hc]
          calc (pyStrip (t.take (findSplit t cs))).length
              ≤ (t.take (findSplit t cs)).length := pyStrip_length_le _
            _ ≤ findSplit t cs := by
                rw [List.length_take]
                exact min_le_left _ _
            _ ≤ cs := findSplit_le t cs

/-- Under a hard cut, the split index is exactly `cs`. -/
theorem findSplit_hardCut {t : List Char} {cs : ℕ} (h : hardCutAt t cs) :
    findSplit t cs = cs := by
  obtain ⟨h2, h1, hd, hs⟩ := h
  unfold findSplit
  rw [h2, h1, hd, hs]

/-- C4 (amended): segmenting an empty or whitespace-only text yields the
empty sequence; a non-blank text of length ≤ maxSize yields exactly the
one-element sequence of its trimmed self; every chunk of any terminating
run — not only the non-final ones — has length ≤ maxSize; and a hard-cut
loop step (no boundary at or before offset maxSize) emits the trimmed
maxSize-character prefix, whose length is ≤ maxSize, with equality exactly
when that prefix neither starts nor ends with whitespace. -/
theorem segment_bounds (text : List Char) (cs ov fuel : ℕ) (hcs : 0 < cs) :
    ((pyStrip text).isEmpty → recursive_split text cs ov fuel = some []) ∧
    (¬ (pyStrip text).isEmpty = true → text.length ≤ cs →
      recursive_split text cs ov fuel = some [pyStrip text]) ∧
    (∀ out, recursive_split text cs ov fuel = some out →
      ∀ c ∈ out, c.length ≤ cs) ∧
    (∀ (t : List Char) (acc : List (List Char)) (fuel' : ℕ),
      cs < t.length → hardCutAt t cs →
      (splitLoop cs ov (fuel' + 1) acc t =
        splitLoop cs ov fuel'
          (acc ++ if (pyStrip (t.take cs)).isEmpty then [] else [pyStrip (t.take cs)])
          (t.drop (cs - ov)) ∧
       (pyStrip (t.take cs)).length ≤ cs ∧
       ((pyStrip (t.take cs)).length = cs ↔
        (isPySpace ((t.take cs).headD ' ') = false ∧
         isPySpace ((t.take cs).getLastD ' ') = false)))) := by
  refine ⟨?_, ?_, ?_, ?_⟩
  · intro h
    unfold recursive_split
    rw [if_pos h]
  · intro h hle
    unfold recursive_split
    rw [if_neg h, if_pos hle]
  · intro out h
    unfold recursive_split at h
    split at h
    · cases h
      intro c hc
      cases hc
    · split at h
      · cases h
        intro c hc
        rw [List.mem_singleton.mp hc]
        exact le_trans (pyStrip_length_le text) (by assumption)
      · exact splitLoop_bound cs ov fuel [] text out h (by intro c hc; cases hc)
  · intro t acc fuel' hlt hhc
    have htk : (t.take cs).length = cs := by
      rw [List.length_take]
      omega
    refine ⟨?_, ?_, ?_⟩
    · rw [splitLoop, if_neg (by omega), findSplit_hardCut hhc]
    · exact le_trans (pyStrip_length_le _) (le_of_eq htk)
    · have hne : t.take cs ≠ [] := by
        rw [← List.length_pos, htk]
        exact hcs
      have hiff := pyStrip_length_eq_iff (t.take cs) hne
      rwa [htk] at hiff

/-- C4 counterexample to the claim as stated: on `"x\t\t\t\t"` with
`maxSize = 3`, `overlap = 0` the first loop step is a hard cut (no
boundary in the window), yet the single emitted chunk is `"x"`, of length
1 ≠ 3 — hard-cut chunks do not always have length exactly maxSize, because
the cut prefix is trimmed. -/
theorem segment_hardcut_cex :
    recursive_split hardCutInput 3 0 5 = some [['x']] ∧
    hardCutAt hardCutInput 3 ∧ (['x'] : List Char).length ≠ 3 := by
  refine ⟨rfl, ⟨rfl, rfl, rfl, rfl⟩, by decide⟩

/-- Witness for C4 at a concrete short text. -/
theorem segment_bounds_witness :
    recursive_split "ab".toList 3 0 1 = some [pyStrip "ab".toList] :=
  (segment_bounds "ab".toList 3 0 1 (by decide)).2.1 (by decide) (by decide)

/-! ### C1 — reciprocal rank fusion: dict and dedup lemmas -/

theorem dictGetD_map_of_mem {β : Type} (g : String → β) (d : β) :
    ∀ {ids : List String} {i : String}, i ∈ ids →
      dictGetD (ids.map (fun j => (j, g j))) i d = g i := by
  intro ids
  induction ids with
  | nil =>
    intro i h
    cases h
  | cons j rest ih =>
    intro i h
    rw [List.map_cons, dictGetD]
    by_cases hji : j = i
    · rw [if_pos hji, hji]
    · rw [if_neg hji]
      exact ih ((List.mem_cons.mp h).resolve_left (fun he => hji he.symm))

theorem dictGetD_map_of_not_mem {β : Type} (g : String → β) (d : β) :
    ∀ {ids : List String} {i : String}, i ∉ ids →
      dictGetD (ids.map (fun j => (j, g j))) i d = d := by
  intro ids
  induction ids with
  | nil =>
    intro i _
    rfl
  | cons j rest ih =>
    intro i h
    rw [List.map_cons, dictGetD,
      if_neg (fun hji => h (List.mem_cons.mpr (Or.inl hji.symm)))]
    exact ih (fun hm => h (List.mem_cons_of_mem j hm))

theorem dictKeys_map {β : Type} (g : String → β) (ids : List String) :
    dictKeys (ids.map (fun j => (j, g j))) = ids := by
  induction ids with
  | nil => rfl
  | cons j rest ih =>
    rw [List.map_cons, dictKeys, List.map_cons]
    rw [dictKeys] at ih
    rw [ih]

theorem dictMem_map_iff {β : Type} (g : String → β) (ids : List String)
    (i : String) :
    dictMem i (ids.map (fun j => (j, g j))) = true ↔ i ∈ ids := by
  simp [dictMem, List.any_eq_true]

theorem dictSet_map_mem {β : Type} (g : String → β) (v : β) :
    ∀ {ids : List String}, ids.Nodup → ∀ {i : String}, i ∈ ids →
      dictSet (ids.map (fun j => (j, g j))) i v =
        ids.map (fun j => (j, if j = i then v else g j)) := by
  intro ids
  induction ids with
  | nil =>
    intro _ i h
    cases h
  | cons j rest ih =>
    intro hnd i h
    obtain ⟨hjr, hndr⟩ := List.nodup_cons.mp hnd
    rw [List.map_cons, dictSet, List.map_cons]
    by_cases hji : j = i
    · rw [if_pos hji, if_pos hji]
      congr 1
      refine (List.map_congr_left ?_).symm
      intro a ha
      rw [if_neg (fun hai : a = i => hjr (by rw [hji, ← hai]; exact ha))]
    · rw [if_neg hji, if_neg hji,
        ih hndr ((List.mem_cons.mp h).resolve_left (fun he => hji he.symm))]

theorem dictSet_map_not_mem {β : Type} (g : String → β) (v : β) :
    ∀ {ids : List String} {i : String}, i ∉ ids →
      dictSet (ids.map (fun j => (j, g j))) i v =
        ids.map (fun j => (j, g j)) ++ [(i, v)] := by
  intro ids
  induction ids with
  | nil =>
    intro i _
    rfl
  | cons j rest ih =>
    intro i h
    rw [List.map_cons, dictSet,
      if_neg (fun hji => h (List.mem_cons.mpr (Or.inl hji.symm))),
      ih (fun hm => h (List.mem_cons_of_mem j hm))]
    rfl

theorem mem_dedupFirstAux {x : String} :
    ∀ {L seen : List String}, x ∈ dedupFirstAux seen L ↔ x ∈ L ∧ x ∉ seen := by
  intro L
  induction L with
  | nil => simp [dedupFirstAux]
  | cons y L' ih =>
    intro seen
    rw [dedupFirstAux]
    by_cases hy : y ∈ seen
    · rw [if_pos hy, ih]
      constructor
      · exact fun ⟨h1, h2⟩ => ⟨List.mem_cons_of_mem y h1, h2⟩
      · rintro ⟨h1, h2⟩
        rcases List.mem_cons.mp h1 with rfl | h1
        · exact absurd hy h2
        · exact ⟨h1, h2⟩
    · rw [if_neg hy]
      constructor
      · intro hm
        rcases List.mem_cons.mp hm with rfl | hm
        · exact ⟨List.mem_cons_self _ _, hy⟩
        · obtain ⟨h1, h2⟩ := ih.mp hm
          exact ⟨List.mem_cons_of_mem y h1,
            fun hs => h2 (List.mem_cons_of_mem y hs)⟩
      · rintro ⟨h1, h2⟩
        rcases List.mem_cons.mp h1 with rfl | h1
        · exact List.mem_cons_self _ _
        · by_cases hxy : x = y
          · exact hxy ▸ List.mem_cons_self _ _
          · exact List.mem_cons_of_mem y (ih.mpr ⟨h1, by
              intro hs
              rcases List.mem_cons.mp hs with h | h
              · exact hxy h
              · exact h2 h⟩)

theorem nodup_dedupFirstAux :
    ∀ (L seen : List String), (dedupFirstAux seen L).Nodup := by
  intro L
  induction L with
  | nil =>
    intro seen
    simp [dedupFirstAux]
  | cons y L' ih =>
    intro seen
    rw [dedupFirstAux]
    by_cases hy : y ∈ seen
    · rw [if_pos hy]
      exact ih seen
    · rw [if_neg hy]
      refine List.nodup_cons.mpr ⟨?_, ih (y :: seen)⟩
      intro hmem
      exact (mem_dedupFirstAux.mp hmem).2 (List.mem_cons_self y seen)

theorem dedupFirstAux_append_singleton (x : String) :
    ∀ (L seen : List String),
      dedupFirstAux seen (L ++ [x]) =
        dedupFirstAux seen L ++ (if x ∈ seen ∨ x ∈ L then [] else [x]) := by
  intro L
  induction L with
  | nil =>
    intro seen
    by_cases hx : x ∈ seen
    · simp [dedupFirstAux, hx]
    · simp [dedupFirstAux, hx]
  | cons y L' ih =>
    intro seen
    rw [List.cons_append, dedupFirstAux, dedupFirstAux]
    by_cases hy : y ∈ seen
    · rw [if_pos hy, if_pos hy, ih seen]
      congr 1
      refine if_congr ?_ rfl rfl
      constructor
      · rintro (h | h)
        · exact Or.inl h
        · exact Or.inr (List.mem_cons_of_mem y h)
      · rintro (h | h)
        · exact Or.inl h
        · rcases List.mem_cons.mp h with rfl | h
          · exact Or.inl hy
          · exact Or.inr h
    · rw [if_neg hy, if_neg hy, ih (y :: seen), List.cons_append]
      congr 2
      refine if_congr ?_ rfl rfl
      constructor
      · rintro (h | h)
        · rcases List.mem_cons.mp h with rfl | h
          · exact Or.inr (List.mem_cons_self _ _)
          · exact Or.inl h
        · exact Or.inr (List.mem_cons_of_mem y h)
      · rintro (h | h)
        · exact Or.inl (List.mem_cons_of_mem y h)
        · rcases List.mem_cons.mp h with rfl | h
          · exact Or.inl (List.mem_cons_self _ _)
          · exact Or.inr h

/-! ### C1 — accumulated score and first payload, entry by entry -/

theorem sumInc_append (k : ℚ) (A B : List (ℕ × RankedResult)) (i : String) :
    sumInc k (A ++ B) i = sumInc k A i + sumInc k B i := by
  simp [sumInc, List.filter_append]

theorem sumInc_singleton (k : ℚ) (e : ℕ × RankedResult) (i : String) :
    sumInc k [e] i = if e.2.id = i then 1 / (k + (e.1 : ℚ)) else 0 := by
  by_cases he : e.2.id = i
  · simp [sumInc, List.filter_cons, he]
  · simp [sumInc, List.filter_cons, he]

theorem sumInc_eq_zero (k : ℚ) {ents : List (ℕ × RankedResult)} {i : String}
    (h : i ∉ ents.map (fun rd => rd.2.id)) : sumInc k ents i = 0 := by
  have hf : ents.filter (fun rd => decide (rd.2.id = i)) = [] := by
    rw [List.filter_eq_nil_iff]
    intro rd hrd hdec
    exact h (List.mem_map.mpr ⟨rd, hrd, by simpa using hdec⟩)
  rw [sumInc, hf]
  rfl

theorem firstDocOf_eq_none {ents : List (ℕ × RankedResult)} {i : String}
    (h : i ∉ ents.map (fun rd => rd.2.id)) : firstDocOf ents i = none := by
  rw [firstDocOf, List.find?_eq_none.mpr]
  · rfl
  · intro rd hrd hdec
    exact h (List.mem_map.mpr ⟨rd, hrd, by simpa using hdec⟩)

theorem firstDocOf_append_of_seen {ents : List (ℕ × RankedResult)}
    {i : String} (h : i ∈ ents.map (fun rd => rd.2.id))
    (B : List (ℕ × RankedResult)) :
    firstDocOf (ents ++ B) i = firstDocOf ents i := by
  have hsome : (ents.find? (fun rd => decide (rd.2.id = i))).isSome := by
    rw [List.find?_isSome]
    obtain ⟨rd, hrd, he⟩ := List.mem_map.mp h
    exact ⟨rd, hrd, by simpa using he⟩
  obtain ⟨a, ha⟩ := Option.isSome_iff_exists.mp hsome
  rw [firstDocOf, List.find?_append, ha, firstDocOf, ha]
  rfl

theorem firstDocOf_append_of_new {ents : List (ℕ × RankedResult)} {i : String}
    (h : i ∉ ents.map (fun rd => rd.2.id)) (e : ℕ × RankedResult) :
    firstDocOf (ents ++ [e]) i =
      if e.2.id = i then some e.2 else none := by
  have hnone : ents.find? (fun rd => decide (rd.2.id = i)) = none := by
    rw [List.find?_eq_none]
    intro rd hrd hdec
    exact h (List.mem_map.mpr ⟨rd, hrd, by simpa using hdec⟩)
  rw [firstDocOf, List.find?_append, hnone, Option.none_or]
  by_cases he : e.2.id = i
  · simp [List.find?_cons, he]
  · simp [List.find?_cons, he]

/-- The closed form of the fusion loop's state: the score dict maps each id
(in first-seen order) to its accumulated score, the payload dict to the
payload of its first occurrence. -/
theorem rrf_fold_closed (k : ℚ) (ents : List (ℕ × RankedResult)) :
    ents.foldl (rrfStep k) ([], []) =
      ((dedupFirstAux [] (ents.map (fun rd => rd.2.id))).map
        (fun i => (i, sumInc k ents i)),
       (dedupFirstAux [] (ents.map (fun rd => rd.2.id))).map
        (fun i => (i, (firstDocOf ents i).getD defaultDoc))) := by
  induction ents using List.reverseRecOn with
  | nil => rfl
  | append_singleton ents e ih =>
    rw [List.foldl_append, ih, List.foldl_cons, List.foldl_nil, rrfStep]
    dsimp only
    have hkeys_mem : ∀ {j : String},
        j ∈ dedupFirstAux [] (ents.map (fun rd => rd.2.id)) ↔
          j ∈ ents.map (fun rd => rd.2.id) := by
      intro j
      rw [mem_dedupFirstAux]
      simp
    have hnd : (dedupFirstAux [] (ents.map (fun rd => rd.2.id))).Nodup :=
      nodup_dedupFirstAux _ []
    have hids : (ents ++ [e]).map (fun rd => rd.2.id) =
        ents.map (fun rd => rd.2.id) ++ [e.2.id] := by
      rw [List.map_append]
      rfl
    by_cases hm : e.2.id ∈ ents.map (fun rd => rd.2.id)
    · rw [dictGetD_map_of_mem _ _ (hkeys_mem.mpr hm),
        dictSet_map_mem _ _ hnd (hkeys_mem.mpr hm),
        if_pos ((dictMem_map_iff _ _ _).mpr (hkeys_mem.mpr hm))]
      rw [hids, dedupFirstAux_append_singleton, if_pos (Or.inr hm),
        List.append_nil]
      refine Prod.ext ?_ ?_
      · refine List.map_congr_left ?_
        intro j hj
        rw [sumInc_append, sumInc_singleton]
        by_cases hji : j = e.2.id
        · rw [if_pos hji, if_pos hji.symm, hji]
        · rw [if_neg hji, if_neg (fun he => hji he.symm), add_zero]
      · refine List.map_congr_left ?_
        intro j hj
        rw [firstDocOf_append_of_seen (hkeys_mem.mp hj)]
    · rw [dictGetD_map_of_not_mem _ _ (fun hj => hm (hkeys_mem.mp hj)),
        dictSet_map_not_mem _ _ (fun hj => hm (hkeys_mem.mp hj)),
        if_neg (by
          intro hmem
          exact hm (hkeys_mem.mp ((dictMem_map_iff _ _ _).mp hmem)))]
      rw [hids, dedupFirstAux_append_singleton, if_neg (by simpa using hm)]
      have hfst :
          (dedupFirstAux [] (ents.map (fun rd => rd.2.id))).map
              (fun j => (j, sumInc k ents j)) ++
            [(e.2.id, 0 + 1 / (k + (e.1 : ℚ)))] =
          ((dedupFirstAux [] (ents.map (fun rd => rd.2.id))) ++ [e.2.id]).map
            (fun i => (i, sumInc k (ents ++ [e]) i)) := by
        rw [List.map_append, List.map_cons, List.map_nil]
        congr 1
        · refine List.map_congr_left ?_
          intro j hj
          rw [sumInc_append, sumInc_singleton,
            if_neg (fun he : e.2.id = j => hm (he ▸ hkeys_mem.mp hj)),
            add_zero]
        · rw [sumInc_append, sumInc_singleton, if_pos rfl,
            sumInc_eq_zero k hm]
      have hsnd :
          (dedupFirstAux [] (ents.map (fun rd => rd.2.id))).map
              (fun i => (i, (firstDocOf ents i).getD defaultDoc)) ++
            [(e.2.id, e.2)] =
          ((dedupFirstAux [] (ents.map (fun rd => rd.2.id))) ++ [e.2.id]).map
            (fun i => (i, (firstDocOf (ents ++ [e]) i).getD defaultDoc)) := by
        rw [List.map_append, List.map_cons, List.map_nil]
        congr 1
        · refine List.map_congr_left ?_
          intro j hj
          rw [firstDocOf_append_of_seen (hkeys_mem.mp hj)]
        · rw [firstDocOf_append_of_new hm, if_pos rfl]
          rfl
      rw [← hfst, ← hsnd]

/-! ### C1 — connecting the processed entries to the spec's description -/

/-- The nested loops of the fusion are one fold over all `(rank, doc)`
entries. -/
theorem rrf_fold_eq (k : ℚ) :
    ∀ (lists : List (List RankedResult))
      (st : List (String × ℚ) × List (String × RankedResult)),
      lists.foldl (fun st l => (l.enumFrom 1).foldl (rrfStep k) st) st =
        ((lists.map (fun l => l.enumFrom 1)).flatten).foldl (rrfStep k) st := by
  intro lists
  induction lists with
  | nil =>
    intro st
    rfl
  | cons l ls ih =>
    intro st
    rw [List.foldl_cons, List.map_cons, List.flatten_cons, List.foldl_append]
    exact ih _

theorem enumFrom_map_snd_id :
    ∀ (l : List RankedResult) (n : ℕ),
      (l.enumFrom n).map (fun rd => rd.2.id) = l.map RankedResult.id := by
  intro l
  induction l with
  | nil => intro n; rfl
  | cons d l' ih =>
    intro n
    rw [List.enumFrom, List.map_cons, List.map_cons, ih]

theorem rrfEnts_ids (lists : List (List RankedResult)) :
    (rrfEnts lists).map (fun rd => rd.2.id) =
      lists.flatten.map RankedResult.id := by
  unfold rrfEnts
  induction lists with
  | nil => rfl
  | cons l ls ih =>
    rw [List.map_cons, List.flatten_cons, List.map_append, ih,
      List.flatten_cons, List.map_append, enumFrom_map_snd_id]

theorem sumInc_enum_zero (k : ℚ) {i : String} :
    ∀ {l : List RankedResult}, i ∉ l.map RankedResult.id → ∀ n,
      sumInc k (l.enumFrom n) i = 0 := by
  intro l
  induction l with
  | nil =>
    intro _ n
    rfl
  | cons d l' ih =>
    intro h n
    have hdi : ¬ d.id = i := fun he =>
      h (List.mem_cons.mpr (Or.inl he.symm))
    have h' : i ∉ l'.map RankedResult.id := fun hm =>
      h (List.mem_cons_of_mem _ hm)
    rw [List.enumFrom, sumInc, List.filter_cons,
      if_neg (by simpa using hdi)]
    exact ih h' (n + 1)

/-- On a list with no duplicate ids, the accumulated increments from its
enumeration are exactly `1/(k + rank)` at the id's rank (or 0). -/
theorem sumInc_enumFrom (k : ℚ) (i : String) :
    ∀ (l : List RankedResult), (l.map RankedResult.id).Nodup → ∀ n,
      sumInc k (l.enumFrom n) i =
        (match rankInAux i l n with
         | some r => 1 / (k + (r : ℚ))
         | none => 0) := by
  intro l
  induction l with
  | nil =>
    intro _ n
    rfl
  | cons d l' ih =>
    intro hnd n
    rw [List.map_cons] at hnd
    obtain ⟨hd, hnd'⟩ := List.nodup_cons.mp hnd
    rw [List.enumFrom, rankInAux]
    by_cases hdi : d.id = i
    · rw [if_pos hdi]
      have hrest : i ∉ l'.map RankedResult.id := hdi ▸ hd
      rw [sumInc, List.filter_cons, if_pos (by simpa using hdi)]
      rw [List.map_cons, List.sum_cons]
      have := sumInc_enum_zero k hrest (n + 1)
      rw [sumInc] at this
      rw [this, add_zero]
    · rw [if_neg hdi]
      rw [sumInc, List.filter_cons, if_neg (by simpa using hdi)]
      rw [← sumInc]
      exact ih hnd' (n + 1)

/-- Under per-list id uniqueness, the accumulated score over all entries is
the spec's RRF score. -/
theorem sumInc_rrfEnts (k : ℚ) (i : String) :
    ∀ (lists : List (List RankedResult)),
      (∀ l ∈ lists, (l.map RankedResult.id).Nodup) →
      sumInc k (rrfEnts lists) i = specScore k lists i := by
  intro lists
  induction lists with
  | nil =>
    intro _
    rfl
  | cons l ls ih =>
    intro hnd
    have h1 : rrfEnts (l :: ls) = l.enumFrom 1 ++ rrfEnts ls := by
      unfold rrfEnts
      rw [List.map_cons, List.flatten_cons]
    rw [h1, sumInc_append,
      sumInc_enumFrom k i l (hnd l (List.mem_cons_self l ls)) 1,
      ih (fun l' hl' => hnd l' (List.mem_cons_of_mem l hl'))]
    simp only [specScore, List.map_cons, List.sum_cons]
    rfl

theorem find?_enumFrom_map (i : String) :
    ∀ (l : List RankedResult) (n : ℕ),
      ((l.enumFrom n).find? (fun rd => decide (rd.2.id = i))).map
          (fun rd => rd.2) =
        l.find? (fun d => decide (d.id = i)) := by
  intro l
  induction l with
  | nil =>
    intro n
    rfl
  | cons d l' ih =>
    intro n
    rw [List.enumFrom, List.find?_cons, List.find?_cons]
    by_cases hdi : d.id = i
    · simp [hdi]
    · simp only [show (decide (((n, d) : ℕ × RankedResult).2.id = i)) = false
        by simpa using hdi,
        show (decide (d.id = i)) = false by simpa using hdi]
      exact ih (n + 1)

/-- The first payload over all entries is the first matching document of
the concatenated lists. -/
theorem firstDocOf_rrfEnts (i : String) :
    ∀ lists : List (List RankedResult),
      firstDocOf (rrfEnts lists) i =
        lists.flatten.find? (fun d => decide (d.id = i)) := by
  intro lists
  induction lists with
  | nil => rfl
  | cons l ls ih =>
    have h1 : rrfEnts (l :: ls) = l.enumFrom 1 ++ rrfEnts ls := by
      unfold rrfEnts
      rw [List.map_cons, List.flatten_cons]
    rw [h1, List.flatten_cons, firstDocOf, List.find?_append, List.find?_append]
    rcases hfe : (l.enumFrom 1).find? (fun rd => decide (rd.2.id = i))
      with _ | a
    · have hl : l.find? (fun d => decide (d.id = i)) = none := by
        rw [← find?_enumFrom_map i l 1, hfe]
        rfl
      rw [hfe, hl, Option.none_or, Option.none_or]
      exact ih
    · have hl : l.find? (fun d => decide (d.id = i)) = some a.2 := by
        rw [← find?_enumFrom_map i l 1, hfe]
        rfl
      rw [hfe, hl]
      rfl

/-- The fused output in closed form: the first-seen ids, stably sorted by
accumulated score descending, each carrying its first payload and its
accumulated score. -/
theorem rrf_normal_form (lists : List (List RankedResult)) (k : ℚ) :
    reciprocal_rank_fusion lists k =
      (sortDesc (fun i => sumInc k (rrfEnts lists) i) (firstSeenIds lists)).map
        (fun i =>
          ⟨((firstDocOf (rrfEnts lists) i).getD defaultDoc).id,
           ((firstDocOf (rrfEnts lists) i).getD defaultDoc).text,
           ((firstDocOf (rrfEnts lists) i).getD defaultDoc).metadata,
           ((firstDocOf (rrfEnts lists) i).getD defaultDoc).score,
           sumInc k (rrfEnts lists) i⟩) := by
  unfold reciprocal_rank_fusion
  dsimp only
  rw [rrf_fold_eq k lists ([], []),
    show (lists.map (fun l => l.enumFrom 1)).flatten = rrfEnts lists from rfl,
    rrf_fold_closed]
  dsimp only
  have hkeys : dedupFirstAux [] ((rrfEnts lists).map (fun rd => rd.2.id)) =
      firstSeenIds lists := by
    rw [rrfEnts_ids]
    rfl
  rw [dictKeys_map, hkeys]
  rw [sortDesc_congr (f := fun i =>
      dictGetD ((firstSeenIds lists).map
        (fun i => (i, sumInc k (rrfEnts lists) i))) i 0)
    (g := fun i => sumInc k (rrfEnts lists) i)
    (fun i hi => dictGetD_map_of_mem _ _ hi)]
  refine List.map_congr_left ?_
  intro i hi
  have hik : i ∈ firstSeenIds lists := mem_sortDesc.mp hi
  rw [dictGetD_map_of_mem _ _ hik, dictGetD_map_of_mem _ _ hik]

/-- A first-seen id really has a first payload, and it carries that id. -/
theorem firstSeen_firstDoc {lists : List (List RankedResult)} {i : String}
    (h : i ∈ firstSeenIds lists) :
    ∃ d, firstDocOf (rrfEnts lists) i = some d ∧ d.id = i := by
  have hmem : i ∈ lists.flatten.map RankedResult.id :=
    (mem_dedupFirstAux.mp h).1
  obtain ⟨x, hx, hxi⟩ := List.mem_map.mp hmem
  rw [firstDocOf_rrfEnts]
  rcases hf : lists.flatten.find? (fun d => decide (d.id = i)) with _ | d
  · rw [List.find?_eq_none] at hf
    exact absurd (by simpa using hxi) (by simpa using hf x hx)
  · exact ⟨d, hf, by simpa using List.find?_some hf⟩

/-- The testable example of spec §8: one list `[a, b, c]` at `k = 60`
fuses to `a, b, c` with scores `1/61, 1/62, 1/63`. -/
theorem rrf_example :
    reciprocal_rank_fusion [[docA, docB, docC]] 60 =
      [⟨"a", "ta", defaultMeta, 9/10, 1/61⟩,
       ⟨"b", "tb", defaultMeta, 8/10, 1/62⟩,
       ⟨"c", "tc", defaultMeta, 7/10, 1/63⟩] := by
  norm_num +decide [reciprocal_rank_fusion, rrfStep, dictSet, dictGetD,
    dictMem, dictKeys, sortDesc, insertDesc, docA, docB, docC, List.enumFrom,
    List.foldl]

/-- C1: for ranked input lists (each with pairwise-distinct ids) and any
rational constant k, `reciprocal_rank_fusion` gives every output entry the
accumulated score `Σ 1/(k + rank)` over the lists containing its id
(attached as `rrf_score`); the payload kept for an id is that of its first
occurrence across the lists; the output is sorted by accumulated score
descending, stably — entries of equal score keep first-seen order, stated
as: for every score value, the output ids at that score are exactly the
first-seen ids at that score, in first-seen order; each first-seen id
appears exactly once; zero, one, or many lists, empty ones included, are
accepted; and `fuse([[a,b,c]], 60)` is `a, b, c` with scores
`1/61, 1/62, 1/63`. -/
theorem rrf_fusion_spec (lists : List (List RankedResult)) (k : ℚ)
    (hnd : ∀ l ∈ lists, (l.map RankedResult.id).Nodup) :
    (∀ e ∈ reciprocal_rank_fusion lists k,
      e.rrf_score = specScore k lists e.id) ∧
    (∀ e ∈ reciprocal_rank_fusion lists k,
      ∃ d, lists.flatten.find? (fun x => decide (x.id = e.id)) = some d ∧
        e.text = d.text ∧ e.metadata = d.metadata ∧ e.score = d.score) ∧
    (reciprocal_rank_fusion lists k).Pairwise
      (fun a b => a.rrf_score ≥ b.rrf_score) ∧
    ((reciprocal_rank_fusion lists k).map FusedResult.id).Perm
      (firstSeenIds lists) ∧
    (∀ v : ℚ,
      ((reciprocal_rank_fusion lists k).filter
        (fun e => decide (e.rrf_score = v))).map FusedResult.id =
      (firstSeenIds lists).filter
        (fun i => decide (specScore k lists i = v))) ∧
    reciprocal_rank_fusion [] k = [] ∧
    reciprocal_rank_fusion [[], [], []] k = [] ∧
    reciprocal_rank_fusion [[docA, docB, docC]] 60 =
      [⟨"a", "ta", defaultMeta, 9/10, 1/61⟩,
       ⟨"b", "tb", defaultMeta, 8/10, 1/62⟩,
       ⟨"c", "tc", defaultMeta, 7/10, 1/63⟩] := by
  refine ⟨?_, ?_, ?_, ?_, ?_, rfl, rfl, rrf_example⟩
  · intro e he
    rw [rrf_normal_form] at he
    obtain ⟨i, hi, rfl⟩ := List.mem_map.mp he
    obtain ⟨d, hd, hdi⟩ := firstSeen_firstDoc (mem_sortDesc.mp hi)
    show sumInc k (rrfEnts lists) i = specScore k lists
      ((firstDocOf (rrfEnts lists) i).getD defaultDoc).id
    rw [hd, Option.getD_some, hdi, sumInc_rrfEnts k i lists hnd]
  · intro e he
    rw [rrf_normal_form] at he
    obtain ⟨i, hi, rfl⟩ := List.mem_map.mp he
    obtain ⟨d, hd, hdi⟩ := firstSeen_firstDoc (mem_sortDesc.mp hi)
    refine ⟨d, ?_, ?_, ?_, ?_⟩
    · show lists.flatten.find? (fun x => decide (x.id =
        ((firstDocOf (rrfEnts lists) i).getD defaultDoc).id)) = some d
      rw [hd, Option.getD_some, hdi, ← firstDocOf_rrfEnts, hd]
    · show ((firstDocOf (rrfEnts lists) i).getD defaultDoc).text = d.text
      rw [hd, Option.getD_some]
    · show ((firstDocOf (rrfEnts lists) i).getD defaultDoc).metadata = d.metadata
      rw [hd, Option.getD_some]
    · show ((firstDocOf (rrfEnts lists) i).getD defaultDoc).score = d.score
      rw [hd, Option.getD_some]
  · rw [rrf_normal_form]
    refine List.pairwise_map.mpr ?_
    exact sortDesc_pairwise (fun i => sumInc k (rrfEnts lists) i)
      (firstSeenIds lists)
  · rw [rrf_normal_form, List.map_map]
    have hmapid : ((sortDesc (fun i => sumInc k (rrfEnts lists) i)
        (firstSeenIds lists)).map
          (fun i => (FusedResult.id
            (⟨((firstDocOf (rrfEnts lists) i).getD defaultDoc).id,
              ((firstDocOf (rrfEnts lists) i).getD defaultDoc).text,
              ((firstDocOf (rrfEnts lists) i).getD defaultDoc).metadata,
              ((firstDocOf (rrfEnts lists) i).getD defaultDoc).score,
              sumInc k (rrfEnts lists) i⟩ : FusedResult)))) =
        sortDesc (fun i => sumInc k (rrfEnts lists) i) (firstSeenIds lists) := by
      rw [List.map_congr_left (g := fun i => i) (fun i hi => by
        obtain ⟨d, hd, hdi⟩ := firstSeen_firstDoc (mem_sortDesc.mp hi)
        show ((firstDocOf (rrfEnts lists) i).getD defaultDoc).id = i
        rw [hd, Option.getD_some, hdi])]
      exact List.map_id' _
    rw [show ((fun e => FusedResult.id e) ∘ (fun i =>
        (⟨((firstDocOf (rrfEnts lists) i).getD defaultDoc).id,
          ((firstDocOf (rrfEnts lists) i).getD defaultDoc).text,
          ((firstDocOf (rrfEnts lists) i).getD defaultDoc).metadata,
          ((firstDocOf (rrfEnts lists) i).getD defaultDoc).score,
          sumInc k (rrfEnts lists) i⟩ : FusedResult))) = fun i =>
          ((firstDocOf (rrfEnts lists) i).getD defaultDoc).id from rfl]
    rw [List.map_congr_left (g := fun i => i) (fun i hi => by
      obtain ⟨d, hd, hdi⟩ := firstSeen_firstDoc (mem_sortDesc.mp hi)
      show ((firstDocOf (rrfEnts lists) i).getD defaultDoc).id = i
      rw [hd, Option.getD_some, hdi])]
    rw [List.map_id']
    exact sortDesc_perm _ _
  · intro v
    rw [rrf_normal_form, List.filter_map, List.map_map]
    have hstep : List.filter ((fun e => decide (e.rrf_score = v)) ∘ (fun i =>
        (⟨((firstDocOf (rrfEnts lists) i).getD defaultDoc).id,
          ((firstDocOf (rrfEnts lists) i).getD defaultDoc).text,
          ((firstDocOf (rrfEnts lists) i).getD defaultDoc).metadata,
          ((firstDocOf (rrfEnts lists) i).getD defaultDoc).score,
          sumInc k (rrfEnts lists) i⟩ : FusedResult)))
        (sortDesc (fun i => sumInc k (rrfEnts lists) i) (firstSeenIds lists)) =
        List.filter (fun i => decide (sumInc k (rrfEnts lists) i = v))
          (sortDesc (fun i => sumInc k (rrfEnts lists) i) (firstSeenIds lists)) :=
      List.filter_congr (fun i _ => rfl)
    rw [hstep]
    rw [sortDesc_filter_key (fun i => sumInc k (rrfEnts lists) i) v
      (firstSeenIds lists)]
    rw [List.map_congr_left (g := fun i => i) (fun i hi => by
      have hik : i ∈ firstSeenIds lists := (List.mem_filter.mp hi).1
      obtain ⟨d, hd, hdi⟩ := firstSeen_firstDoc hik
      show ((firstDocOf (rrfEnts lists) i).getD defaultDoc).id = i
      rw [hd, Option.getD_some, hdi])]
    rw [List.map_id']
    refine List.filter_congr ?_
    intro i hi
    rw [sumInc_rrfEnts k i lists hnd]

/-- Witness for C1: the theorem applied to the empty input. -/
theorem rrf_fusion_spec_witness : reciprocal_rank_fusion [] 60 = [] :=
  (rrf_fusion_spec [] 60 (by simp)).2.2.2.2.2.1

end Rag
